import Mathlib

/-!
# neotex gap buffer (src/neotex.c): shallow embedding and verification

The C `GapBuffer` is embedded as a record of four `Int` fields (the C `int`s)
and a `List Nat` holding the bytes of the allocated region.  Conventions:

* a byte is a `Nat` (the value of the `char`); `'\n'` is 10, `'\t'` is 9,
  `' '` is 32;
* `malloc` succeeds for every size that fits in an `int` and returns
  zero-filled memory; every theorem about a
  state "satisfying the invariant" quantifies over an arbitrary byte list, so
  it holds for any contents of the gap;
* a read outside the allocated region yields 0, a write outside is dropped;
* the `y + 1` of the range delete, whose operand comes straight from user
  input, is computed modulo `2^32`;
* `grow_buffer`, `insert_char`, `insert_string` and `load` compute
  `capacity + GAP_SIZE` exactly; they are the C functions as long as that sum
  fits in an `int` (capacity at most `INT_MAX - 512`).  `grow_buffer_int`,
  `insert_char_int`, `insert_string_int` and `load_int` compute every `int`
  operation modulo `2^32` and have no result where the sum overflows; the
  statements about growth (C2, C4, C5) are made of these, and
  `grow_buffer_int_eq`, `insert_char_int_eq` relate the two.
-/

namespace Neotex

/-! ## Data model -/

/-- INITIAL_CAPACITY of neotex.c. -/
def INITIAL_CAPACITY : Int := 1024

/-- GAP_SIZE of neotex.c: the amount by which grow_buffer enlarges the region. -/
def GAP_SIZE : Int := 512

/-- The struct GapBuffer of neotex.c. -/
structure GapBuffer where
  buffer : List Nat
  gap_start : Int
  gap_end : Int
  capacity : Int
  length : Int
deriving DecidableEq

/-- Read of `buffer[i]` for a C `int` index. -/
def rd (buf : List Nat) (i : Int) : Nat :=
  if i < 0 then 0 else buf.getD i.toNat 0

/-- Write `buffer[i] = c` for a C `int` index. -/
def wr (buf : List Nat) (i : Int) (c : Nat) : List Nat :=
  if i < 0 then buf else buf.set i.toNat c

/-- Copy of `n` bytes from `src + s` to `dst + d`; used for both memcpy and
memmove (with `src = dst` the source bytes are read before any is written,
which is the memmove semantics). -/
def memcpy (dst : List Nat) (d : Int) (src : List Nat) (s : Int) (n : Int) : List Nat :=
  dst.take d.toNat ++ ((src.drop s.toNat).take n.toNat ++ dst.drop (d.toNat + n.toNat))

/-- Fresh region returned by `malloc(n)`. -/
def malloc (n : Int) : List Nat := List.replicate n.toNat 0

/-! ## Operations of neotex.c -/

/-- Embedding of create_buffer. -/
def create_buffer (cap : Int) : GapBuffer :=
  let cap := if cap ≤ 0 then INITIAL_CAPACITY else cap
  { buffer := malloc cap, capacity := cap, gap_start := 0, gap_end := cap, length := 0 }

/-- Embedding of grow_buffer with `capacity + GAP_SIZE` computed exactly: the C
function as long as the sum fits in an `int`; grow_buffer_int follows the 32-bit
arithmetic. -/
def grow_buffer (gb : GapBuffer) : GapBuffer :=
  let new_cap := gb.capacity + GAP_SIZE
  let new_buf := malloc new_cap
  let post_len := gb.capacity - gb.gap_end
  let new_gap_end := new_cap - post_len
  let new_buf := memcpy new_buf 0 gb.buffer 0 gb.gap_start
  let new_buf := memcpy new_buf new_gap_end gb.buffer gb.gap_end post_len
  { gb with buffer := new_buf, gap_end := new_gap_end, capacity := new_cap }

/-- Embedding of move_gap. -/
def move_gap (gb : GapBuffer) (target : Int) : GapBuffer :=
  let target := if target < 0 then 0 else target
  let target := if target > gb.length then gb.length else target
  if target < gb.gap_start then
    let delta := gb.gap_start - target
    { gb with
      buffer := memcpy gb.buffer (gb.gap_end - delta) gb.buffer target delta
      gap_start := target
      gap_end := gb.gap_end - delta }
  else if target > gb.gap_start then
    let delta := target - gb.gap_start
    { gb with
      buffer := memcpy gb.buffer gb.gap_start gb.buffer gb.gap_end delta
      gap_start := gb.gap_start + delta
      gap_end := gb.gap_end + delta }
  else gb

/-- Embedding of insert_char. -/
def insert_char (gb : GapBuffer) (c : Nat) : GapBuffer :=
  let gb := if gb.gap_start = gb.gap_end then grow_buffer gb else gb
  { gb with
    buffer := wr gb.buffer gb.gap_start c
    gap_start := gb.gap_start + 1
    length := gb.length + 1 }

/-- Loop of insert_string over the bytes at `str`: it stops at the first zero
byte (the end of the list standing for the terminator when there is none). -/
def insert_string_loop (gb : GapBuffer) : List Nat → GapBuffer
  | [] => gb
  | c :: cs => if c = 0 then gb else insert_string_loop (insert_char gb c) cs

/-- Embedding of insert_string; `none` is the null pointer. -/
def insert_string (gb : GapBuffer) (str : Option (List Nat)) : GapBuffer :=
  match str with
  | none => gb
  | some s => insert_string_loop gb s

/-- Bytes written by the first fwrite of save_file: `[0, gap_start)`. -/
def before_gap (gb : GapBuffer) : List Nat :=
  gb.buffer.take gb.gap_start.toNat

/-- Bytes written by the second fwrite of save_file: `[gap_end, capacity)`. -/
def after_gap (gb : GapBuffer) : List Nat :=
  (gb.buffer.drop gb.gap_end.toNat).take (gb.capacity - gb.gap_end).toNat

/-- Embedding of save_file: the byte sequence written to the file. -/
def save_file (gb : GapBuffer) : List Nat :=
  before_gap gb ++ after_gap gb

/-- Load loop of main: insert_char on each byte read, in order. -/
def load (gb : GapBuffer) (bs : List Nat) : GapBuffer :=
  bs.foldl insert_char gb

/-- One scanning loop of find_line_offset,
`while (p < limit) { if (buffer[p++] == '\n' && ++line == target_line) return ...; }`.
The result is `Sum.inl p` when the loop returns at index `p` (already
incremented) and `Sum.inr line` when it runs to `limit` with the line counter at
`line`.  The first argument bounds the iterations; `limit - p` is always enough. -/
def scan_lines (buf : List Nat) (limit target_line : Int) : Nat → Int → Int → Int ⊕ Int
  | 0, _, line => Sum.inr line
  | fuel + 1, p, line =>
    if p < limit then
      if rd buf p = 10 then
        if line + 1 = target_line then Sum.inl (p + 1)
        else scan_lines buf limit target_line fuel (p + 1) (line + 1)
      else scan_lines buf limit target_line fuel (p + 1) line
    else Sum.inr line

/-- Embedding of find_line_offset. -/
def find_line_offset (gb : GapBuffer) (target_line : Int) : Int :=
  if target_line ≤ 1 then 0
  else
    match scan_lines gb.buffer gb.gap_start target_line gb.gap_start.toNat 0 1 with
    | Sum.inl pos => pos
    | Sum.inr line =>
      match scan_lines gb.buffer gb.capacity target_line
          (gb.capacity - gb.gap_end).toNat gb.gap_end line with
      | Sum.inl post => gb.gap_start + (post - gb.gap_end)
      | Sum.inr _ => gb.length

/-- Value of a C `int` expression computed modulo `2^32` (two's complement). -/
def wrap32 (v : Int) : Int := (v + 2147483648) % 4294967296 - 2147483648

/-- The `:d *x y` command of main with both numbers parsed and `x <= y`
(lines 255-259). -/
def delete_range (gb : GapBuffer) (x y : Int) : GapBuffer :=
  let start := find_line_offset gb x
  let end_off := find_line_offset gb (wrap32 (y + 1))
  let gb := move_gap gb start
  { gb with
    length := gb.length - (end_off - start)
    gap_end := gb.gap_end + (end_off - start) }

/-- The `:d *L` command of main (lines 262-264): delete from line `n` to the end. -/
def delete_to_end (gb : GapBuffer) (n : Int) : GapBuffer :=
  let gb := move_gap gb (find_line_offset gb n)
  { gb with length := gb.gap_start, gap_end := gb.capacity }

/-- Loop of the `:d L` command (lines 270-274); `capacity - gap_end` iterations
are always enough. -/
def delete_line_loop : Nat → GapBuffer → GapBuffer
  | 0, gb => gb
  | fuel + 1, gb =>
    if gb.gap_end < gb.capacity then
      let c := rd gb.buffer gb.gap_end
      let gb := { gb with gap_end := gb.gap_end + 1, length := gb.length - 1 }
      if c = 10 then gb else delete_line_loop fuel gb
    else gb

/-- The `:d L` command of main (lines 268-275): delete line `n`. -/
def delete_line (gb : GapBuffer) (n : Int) : GapBuffer :=
  let gb := move_gap gb (find_line_offset gb n)
  if gb.gap_end < gb.capacity then
    delete_line_loop (gb.capacity - gb.gap_end).toNat gb
  else gb

/-- Byte `c` that auto_indent reads for index `i` (lines 111-113 and 133-135):
`none` when `i` lies inside the gap. -/
def gap_read (gb : GapBuffer) (i : Int) : Option Nat :=
  if i < gb.gap_start then some (rd gb.buffer i)
  else if i ≥ gb.gap_end then some (rd gb.buffer (i - (gb.gap_end - gb.gap_start)))
  else none

/-- Inner loop of auto_indent (line 104),
`while (line_start >= 0 && buffer[line_start] != '\n') line_start--;`
started with `line_start + 1` iterations allowed, which is always enough. -/
def scan_line_start (buf : List Nat) : Nat → Int → Int
  | 0, line_start => line_start
  | fuel + 1, line_start =>
    if 0 ≤ line_start ∧ rd buf line_start ≠ 10 then scan_line_start buf fuel (line_start - 1)
    else line_start

/-- The `for` loop of auto_indent (lines 109-119) computing `has_content`. -/
def has_content (gb : GapBuffer) (pos : Int) : Nat → Int → Bool
  | 0, _ => false
  | fuel + 1, i =>
    if i ≤ pos then
      match gap_read gb i with
      | some c => if c ≠ 32 ∧ c ≠ 9 then true else has_content gb pos fuel (i + 1)
      | none => has_content gb pos fuel (i + 1)
    else false

/-- Step 1 of auto_indent (lines 101-127): the value of
`last_nonempty_line_start` when the outer loop is left.  `pos + 1` iterations
are always enough, since every iteration lowers `pos` by at least one. -/
def find_nonempty_line (gb : GapBuffer) : Nat → Int → Int
  | 0, _ => 0
  | fuel + 1, pos =>
    if 0 ≤ pos then
      let line_start := scan_line_start gb.buffer (pos + 1).toNat pos + 1
      if has_content gb pos (pos - line_start + 1).toNat line_start then line_start
      else find_nonempty_line gb fuel (line_start - 2)
    else 0

/-- Step 2 of auto_indent (lines 131-140), the `while (1)` copy loop.  The loop
need not terminate, so the embedding takes a bound on the number of iterations
and returns `none` when the bound is reached before the loop breaks. -/
def copy_indent : Nat → GapBuffer → Int → Option GapBuffer
  | 0, _, _ => none
  | fuel + 1, gb, copy_pos =>
    match gap_read gb copy_pos with
    | none => some gb
    | some c =>
      if c ≠ 32 ∧ c ≠ 9 then some gb
      else copy_indent fuel (insert_char gb c) (copy_pos + 1)

/-- Embedding of auto_indent; `fuel` bounds the iterations of the copy loop and
the result is `none` when the loop has not finished within the bound. -/
def auto_indent (fuel : Nat) (gb : GapBuffer) : Option GapBuffer :=
  if gb.gap_start = 0 then some gb
  else
    let pos := gb.gap_start - 1
    copy_indent fuel gb (find_nonempty_line gb (pos + 1).toNat pos)

/-! ## Invariant and representation -/

/-- The invariant of the data model (spec §3 and §8). -/
def Inv (gb : GapBuffer) : Prop :=
  0 ≤ gb.gap_start ∧ gb.gap_start ≤ gb.gap_end ∧ gb.gap_end ≤ gb.capacity ∧
    gb.length = gb.capacity - (gb.gap_end - gb.gap_start)

/-- A well-formed state: the invariant holds and `buffer` points to a region of
exactly `capacity` bytes. -/
def WF (gb : GapBuffer) : Prop :=
  Inv gb ∧ (gb.buffer.length : Int) = gb.capacity

instance (gb : GapBuffer) : Decidable (Inv gb) := by unfold Inv; infer_instance

instance (gb : GapBuffer) : Decidable (WF gb) := by unfold WF; infer_instance

/-- The state whose region is `B ++ G ++ A` with the gap over `G`. -/
def layout (B G A : List Nat) : GapBuffer :=
  { buffer := B ++ (G ++ A)
    gap_start := B.length
    gap_end := B.length + G.length
    capacity := B.length + G.length + A.length
    length := B.length + A.length }

/-- The target of move_gap after its two clamping statements (lines 59-60). -/
def clamp (target len : Int) : Int :=
  let target := if target < 0 then 0 else target
  if target > len then len else target

/-- Spec §4.4 in its own words: the logical offset immediately following the
`k`-th line terminator of the content `c`, or the length of `c` when `c` has
fewer than `k` terminators. -/
def offset_after_terminators : Nat → List Nat → Nat
  | 0, _ => 0
  | _ + 1, [] => 0
  | k + 1, b :: bs =>
    1 + (if b = 10 then offset_after_terminators k bs else offset_after_terminators (k + 1) bs)

/-- Spec §4.4 `line_offset(n)` as a function of the logical content alone: 0 for
`n <= 1`, otherwise the offset after the `(n-1)`-th terminator (or the length). -/
def line_offset_spec (c : List Nat) (n : Int) : Int :=
  if n ≤ 1 then 0 else offset_after_terminators (n - 1).toNat c

/-- Number of bytes of the line at the head of `rest`, terminator included: the
offset just after the first `'\n'` of `rest`, or the length of `rest` when it
has none. -/
def line_span (rest : List Nat) : Nat :=
  if 10 ∈ rest then rest.indexOf 10 + 1 else rest.length

/-- States reachable from create_buffer by the operations of the editor:
insert_char, insert_string, move_gap with any integer, a terminating
auto_indent, the single-line delete, the delete to end, and the inclusive range
delete `[x, y]` with 32-bit line numbers `x <= y <= ymax`. -/
inductive ReachableUpTo (ymax : Int) : GapBuffer → Prop
  | created (cap : Int) : ReachableUpTo ymax (create_buffer cap)
  | inserted_char {gb : GapBuffer} (c : Nat) :
      ReachableUpTo ymax gb → ReachableUpTo ymax (insert_char gb c)
  | inserted_string {gb : GapBuffer} (str : Option (List Nat)) :
      ReachableUpTo ymax gb → ReachableUpTo ymax (insert_string gb str)
  | moved_gap {gb : GapBuffer} (k : Int) :
      ReachableUpTo ymax gb → ReachableUpTo ymax (move_gap gb k)
  | indented {gb gb' : GapBuffer} (fuel : Nat) :
      ReachableUpTo ymax gb → auto_indent fuel gb = some gb' → ReachableUpTo ymax gb'
  | deleted_line {gb : GapBuffer} (n : Int) :
      ReachableUpTo ymax gb → ReachableUpTo ymax (delete_line gb n)
  | deleted_range {gb : GapBuffer} (x y : Int) :
      x ≤ y → -2147483648 ≤ x → y ≤ ymax →
      ReachableUpTo ymax gb → ReachableUpTo ymax (delete_range gb x y)
  | deleted_to_end {gb : GapBuffer} (n : Int) :
      ReachableUpTo ymax gb → ReachableUpTo ymax (delete_to_end gb n)

/-- Reachable states, the line numbers of the range delete ranging over all of
the C `int`s (up to `INT_MAX = 2^31 - 1`). -/
def Reachable : GapBuffer → Prop := ReachableUpTo 2147483647

/-- The document `"1\n"` left by loading the file `"1\nXY"` into the editor and
deleting line 2 with `:d 2`. -/
def doc_after_line_delete : GapBuffer :=
  delete_line (load (create_buffer 1024) [49, 10, 88, 89]) 2

/-- The document obtained by loading a file of 513 bytes `'a'`. -/
def doc_513 : GapBuffer :=
  load (create_buffer 1024) (List.replicate 513 97)

/-- The document `"a\nb\n"` loaded into the editor. -/
def doc_two_lines : GapBuffer :=
  load (create_buffer 1024) [97, 10, 98, 10]

/-- A file of 1024 bytes whose only newline is its 511th byte: 510 bytes `'a'`,
`'\n'`, 513 bytes `'a'`. -/
def file_1024 : List Nat :=
  List.replicate 510 97 ++ 10 :: List.replicate 513 97

/-- The document obtained by loading `file_1024`: it fills the initial region,
so the gap is empty. -/
def doc_full : GapBuffer :=
  load (create_buffer 1024) file_1024

/-- The editing commands that C13 lets occur between two insertions, and the
insertion itself. -/
inductive EditOp where
  | insert (c : Nat)
  | move (k : Int)
  | del_line (n : Int)
  | del_range (x y : Int)
  | del_to_end (n : Int)

/-- Effect of one editing command on the document. -/
def EditOp.apply (gb : GapBuffer) : EditOp → GapBuffer
  | EditOp.insert c => insert_char gb c
  | EditOp.move k => move_gap gb k
  | EditOp.del_line n => delete_line gb n
  | EditOp.del_range x y => delete_range gb x y
  | EditOp.del_to_end n => delete_to_end gb n

/-- Effect of a sequence of editing commands, in order. -/
def run (gb : GapBuffer) (ops : List EditOp) : GapBuffer :=
  ops.foldl EditOp.apply gb

/-- Whether the command is an insertion. -/
def EditOp.is_insert : EditOp → Bool
  | EditOp.insert _ => true
  | _ => false

/-- The command is well-formed and its `y + 1` does not overflow: a range delete
has 32-bit line numbers `x <= y < INT_MAX`; nothing is asked of the others. -/
def EditOp.below_int_max : EditOp → Prop
  | EditOp.del_range x y => x ≤ y ∧ -2147483648 ≤ x ∧ y < 2147483647
  | _ => True

/-! ## The growth path in 32-bit arithmetic

`grow_buffer`, `insert_char`, `insert_string` and `load` above compute
`capacity + GAP_SIZE` exactly.  The C code computes it in an `int`; the versions
below follow that arithmetic and return `none` where the sum does not fit: the
wrapped value is negative, no allocation of that size can succeed, and
grow_buffer leaves through `exit(1)`. -/

/-- Embedding of grow_buffer with every `int` operation computed modulo `2^32`.
The result is `none` when `new_cap` has wrapped to a negative value (the size
handed to malloc is then beyond any allocation and the function exits the
process, lines 39-42). -/
def grow_buffer_int (gb : GapBuffer) : Option GapBuffer :=
  let new_cap := wrap32 (gb.capacity + GAP_SIZE)
  if new_cap < 0 then none
  else
    let new_buf := malloc new_cap
    let post_len := wrap32 (gb.capacity - gb.gap_end)
    let new_gap_end := wrap32 (new_cap - post_len)
    let new_buf := memcpy new_buf 0 gb.buffer 0 gb.gap_start
    let new_buf := memcpy new_buf new_gap_end gb.buffer gb.gap_end post_len
    some { gb with buffer := new_buf, gap_end := new_gap_end, capacity := new_cap }

/-- Embedding of insert_char over grow_buffer_int, the two increments computed
modulo `2^32`; `none` when the growth it needs has no result. -/
def insert_char_int (gb : GapBuffer) (c : Nat) : Option GapBuffer :=
  match (if gb.gap_start = gb.gap_end then grow_buffer_int gb else some gb) with
  | none => none
  | some gb =>
    some { gb with
      buffer := wr gb.buffer gb.gap_start c
      gap_start := wrap32 (gb.gap_start + 1)
      length := wrap32 (gb.length + 1) }

/-- Loop of insert_string over insert_char_int: it stops at the first zero byte
(the end of the list standing for the terminator when there is none). -/
def insert_string_loop_int (gb : GapBuffer) : List Nat → Option GapBuffer
  | [] => some gb
  | c :: cs =>
    if c = 0 then some gb
    else
      match insert_char_int gb c with
      | none => none
      | some gb => insert_string_loop_int gb cs

/-- Embedding of insert_string over insert_char_int; the argument `none` is the
null pointer. -/
def insert_string_int (gb : GapBuffer) (str : Option (List Nat)) : Option GapBuffer :=
  match str with
  | none => some gb
  | some s => insert_string_loop_int gb s

/-- Load loop of main over insert_char_int. -/
def load_int (gb : GapBuffer) : List Nat → Option GapBuffer
  | [] => some gb
  | b :: bs =>
    match insert_char_int gb b with
    | none => none
    | some gb => load_int gb bs

/-- Number of growths that inserting `n` bytes needs when the gap holds `gap`
bytes: none when they fit, otherwise `(n - gap) / 512` rounded up. -/
def growths_needed (gap n : Nat) : Nat := (n - gap + 511) / 512

/-- A file of 2147483136 bytes `'a'`: the largest one the editor can hold, since
its capacity grows 1024, 1536, ... up to 2147483136 = INT_MAX - 511. -/
def file_max : List Nat := List.replicate 2147483136 97

/-- The document holding `file_max`: the region of 2147483136 bytes is full. -/
def doc_max : GapBuffer := layout file_max [] []

/-! ## Verification: representation lemmas -/

theorem take_app_len {l₁ l₂ : List Nat} {n : Nat} (h : n = l₁.length) :
    (l₁ ++ l₂).take n = l₁ := by
  subst h; simp

theorem drop_app_len {l₁ l₂ : List Nat} {n : Nat} (h : n = l₁.length) :
    (l₁ ++ l₂).drop n = l₂ := by
  subst h; simp

theorem take_all_len {l : List Nat} {n : Nat} (h : n = l.length) : l.take n = l := by
  subst h; simp

theorem before_gap_layout (B G A : List Nat) : before_gap (layout B G A) = B := by
  simp [before_gap, layout]

theorem after_gap_layout (B G A : List Nat) : after_gap (layout B G A) = A := by
  unfold after_gap layout
  simp only
  rw [show ((B.length : Int) + G.length).toNat = (B ++ G).length by simp; omega,
    ← List.append_assoc, drop_app_len rfl, take_all_len (by omega)]

theorem save_file_layout (B G A : List Nat) : save_file (layout B G A) = B ++ A := by
  simp [save_file, before_gap_layout, after_gap_layout]

theorem WF_layout (B G A : List Nat) : WF (layout B G A) := by
  simp only [WF, Inv, layout, List.length_append]
  refine ⟨⟨?_, ?_, ?_, ?_⟩, ?_⟩ <;> push_cast <;> omega

theorem WF.rep {gb : GapBuffer} (h : WF gb) :
    ∃ G, gb = layout (before_gap gb) G (after_gap gb) := by
  obtain ⟨buf, gs, ge, cap, len⟩ := gb
  obtain ⟨⟨h0, h1, h2, h3⟩, h4⟩ := h
  simp only at h0 h1 h2 h3 h4
  refine ⟨(buf.drop gs.toNat).take (ge - gs).toNat, ?_⟩
  have hA : after_gap ⟨buf, gs, ge, cap, len⟩ = buf.drop ge.toNat := by
    simp only [after_gap]
    apply take_all_len
    simp only [List.length_drop]; omega
  rw [hA]
  simp only [layout, before_gap, List.length_take, List.length_drop, GapBuffer.mk.injEq]
  refine ⟨?_, ?_, ?_, ?_, ?_⟩
  · conv_lhs => rw [← List.take_append_drop gs.toNat buf]
    congr 1
    conv_lhs => rw [← List.take_append_drop (ge - gs).toNat (buf.drop gs.toNat)]
    congr 1
    rw [List.drop_drop]
    congr 1; omega
  all_goals omega

theorem memcpy_eq (P M S chunk src : List Nat) (d s n : Int)
    (hd : d = P.length) (hn : n = M.length)
    (hc : (src.drop s.toNat).take n.toNat = chunk) :
    memcpy (P ++ (M ++ S)) d src s n = P ++ (chunk ++ S) := by
  subst hd hn
  have h1 : (P ++ (M ++ S)).take P.length = P := take_app_len rfl
  have h2 : (P ++ (M ++ S)).drop (P.length + M.length) = S := by
    rw [← List.append_assoc]; exact drop_app_len (by simp)
  unfold memcpy
  rw [hc, Int.toNat_ofNat, Int.toNat_ofNat, h1, h2]

theorem grow_buffer_layout (B G A : List Nat) :
    grow_buffer (layout B G A) = layout B (List.replicate (G.length + 512) 0) A := by
  have hm : malloc ((B.length : Int) + G.length + A.length + GAP_SIZE)
      = [] ++ (List.replicate B.length 0 ++
          (List.replicate (G.length + 512) 0 ++ List.replicate A.length 0)) := by
    simp only [malloc, GAP_SIZE, List.nil_append, ← List.replicate_add]
    congr 1; omega
  have h1 : memcpy (malloc ((B.length : Int) + G.length + A.length + GAP_SIZE)) 0
      (B ++ (G ++ A)) 0 B.length
      = (B ++ List.replicate (G.length + 512) 0) ++ (List.replicate A.length 0 ++ []) := by
    rw [hm, memcpy_eq [] _ _ B (B ++ (G ++ A)) 0 0 B.length rfl (by simp) (by simp)]
    simp
  have h2 : memcpy (memcpy (malloc ((B.length : Int) + G.length + A.length + GAP_SIZE)) 0
        (B ++ (G ++ A)) 0 B.length)
      ((B.length : Int) + G.length + A.length + GAP_SIZE
        - ((B.length : Int) + G.length + A.length - (B.length + G.length)))
      (B ++ (G ++ A)) ((B.length : Int) + G.length)
      ((B.length : Int) + G.length + A.length - (B.length + G.length))
      = B ++ (List.replicate (G.length + 512) 0 ++ A) := by
    rw [h1, memcpy_eq _ _ _ A (B ++ (G ++ A)) _ _ _ (by simp [GAP_SIZE]; omega) (by simp)]
    · simp
    · rw [show ((B.length : Int) + G.length).toNat = (B ++ G).length by simp; omega,
        ← List.append_assoc, drop_app_len rfl, take_all_len (by omega)]
  simp only [grow_buffer, layout] at h2 ⊢
  rw [h2]
  simp only [GAP_SIZE, List.length_replicate, GapBuffer.mk.injEq, true_and, and_true]
  constructor <;> push_cast <;> omega

theorem clamp_eq (k len : Int) (h : 0 ≤ len) : clamp k len = max 0 (min k len) := by
  unfold clamp
  simp only
  split_ifs <;> omega

theorem move_gap_unfold (gb : GapBuffer) (k : Int) :
    move_gap gb k =
      if clamp k gb.length < gb.gap_start then
        { gb with
          buffer := memcpy gb.buffer (gb.gap_end - (gb.gap_start - clamp k gb.length))
            gb.buffer (clamp k gb.length) (gb.gap_start - clamp k gb.length)
          gap_start := clamp k gb.length
          gap_end := gb.gap_end - (gb.gap_start - clamp k gb.length) }
      else if clamp k gb.length > gb.gap_start then
        { gb with
          buffer := memcpy gb.buffer gb.gap_start gb.buffer gb.gap_end
            (clamp k gb.length - gb.gap_start)
          gap_start := gb.gap_start + (clamp k gb.length - gb.gap_start)
          gap_end := gb.gap_end + (clamp k gb.length - gb.gap_start) }
      else gb := rfl

theorem move_gap_left (B₁ B₂ G A : List Nat) (k : Int) (hne : B₂ ≠ [])
    (hk : clamp k ((B₁ ++ B₂).length + A.length : Nat) = B₁.length) :
    move_gap (layout (B₁ ++ B₂) G A) k = layout B₁ ((B₂ ++ G).take G.length) (B₂ ++ A) := by
  have hpos : 0 < B₂.length := List.length_pos.mpr hne
  rw [move_gap_unfold]
  have hlen : (layout (B₁ ++ B₂) G A).length = ((B₁ ++ B₂).length + A.length : Nat) := by
    simp [layout]
  rw [hlen, hk]
  simp only [layout]
  rw [if_pos (by simp; omega)]
  have hsplit : (B₁ ++ B₂) ++ (G ++ A)
      = (B₁ ++ (B₂ ++ G).take G.length) ++ ((B₂ ++ G).drop G.length ++ A) := by
    conv_lhs => rw [List.append_assoc, ← List.append_assoc B₂ G A,
      ← List.take_append_drop G.length (B₂ ++ G)]
    simp only [List.append_assoc]
  have hmem := memcpy_eq (B₁ ++ (B₂ ++ G).take G.length) ((B₂ ++ G).drop G.length) A B₂
    ((B₁ ++ B₂) ++ (G ++ A))
    (((B₁ ++ B₂).length : Int) + G.length - (((B₁ ++ B₂).length : Int) - B₁.length))
    B₁.length (((B₁ ++ B₂).length : Int) - B₁.length)
    (by simp; omega) (by simp) (by
      rw [Int.toNat_ofNat, List.append_assoc, drop_app_len rfl,
        show (((B₁ ++ B₂).length : Int) - B₁.length).toNat = B₂.length by simp,
        take_app_len rfl])
  rw [← hsplit] at hmem
  rw [hmem]
  simp only [GapBuffer.mk.injEq, List.append_assoc, List.length_append, List.length_take,
    List.length_drop, true_and]
  refine ⟨?_, ?_, ?_⟩ <;> push_cast <;> omega

theorem move_gap_right (B G A₁ A₂ : List Nat) (k : Int) (hne : A₁ ≠ [])
    (hk : clamp k (B.length + (A₁ ++ A₂).length : Nat) = (B ++ A₁).length) :
    move_gap (layout B G (A₁ ++ A₂)) k = layout (B ++ A₁) ((G ++ A₁).drop A₁.length) A₂ := by
  have hpos : 0 < A₁.length := List.length_pos.mpr hne
  rw [move_gap_unfold]
  have hlen : (layout B G (A₁ ++ A₂)).length = (B.length + (A₁ ++ A₂).length : Nat) := by
    simp [layout]
  rw [hlen, hk]
  simp only [layout]
  rw [if_neg (by simp), if_pos (by simp; omega)]
  have hsplit : B ++ (G ++ (A₁ ++ A₂))
      = B ++ ((G ++ A₁).take A₁.length ++ ((G ++ A₁).drop A₁.length ++ A₂)) := by
    conv_lhs => rw [← List.append_assoc G A₁ A₂,
      ← List.take_append_drop A₁.length (G ++ A₁)]
    simp only [List.append_assoc]
  have hmem := memcpy_eq B ((G ++ A₁).take A₁.length) ((G ++ A₁).drop A₁.length ++ A₂) A₁
    (B ++ (G ++ (A₁ ++ A₂))) B.length ((B.length : Int) + G.length)
    (((B ++ A₁).length : Int) - B.length)
    rfl (by simp) (by
      rw [show ((B.length : Int) + G.length).toNat = (B ++ G).length by simp; omega,
        ← List.append_assoc, drop_app_len rfl,
        show (((B ++ A₁).length : Int) - B.length).toNat = A₁.length by simp,
        take_app_len rfl])
  rw [← hsplit] at hmem
  rw [hmem]
  simp only [GapBuffer.mk.injEq, List.append_assoc, List.length_append, List.length_take,
    List.length_drop, true_and]
  refine ⟨?_, ?_, ?_, ?_⟩ <;> push_cast <;> omega

theorem move_gap_stay (B G A : List Nat) (k : Int)
    (hk : clamp k (B.length + A.length : Nat) = B.length) :
    move_gap (layout B G A) k = layout B G A := by
  rw [move_gap_unfold]
  have hlen : (layout B G A).length = (B.length + A.length : Nat) := by simp [layout]
  rw [hlen, hk]
  simp [layout]

theorem clamp_bounds (k len : Int) (h : 0 ≤ len) : 0 ≤ clamp k len ∧ clamp k len ≤ len := by
  rw [clamp_eq k len h]; omega

theorem move_gap_layout (B G A : List Nat) (k : Int) :
    ∃ G', G'.length = G.length ∧
      move_gap (layout B G A) k
        = layout ((B ++ A).take (clamp k (B.length + A.length : Nat)).toNat) G'
            ((B ++ A).drop (clamp k (B.length + A.length : Nat)).toNat) := by
  obtain ⟨h0, h1⟩ := clamp_bounds k (B.length + A.length : Nat) (by omega)
  obtain ⟨t, ht⟩ := Int.eq_ofNat_of_zero_le h0
  rw [ht] at h1 ⊢
  rw [Int.toNat_ofNat]
  have h1' : t ≤ B.length + A.length := by omega
  rcases Nat.lt_trichotomy t B.length with hlt | heq | hgt
  · have e1 : (B ++ A).take t = B.take t := List.take_append_of_le_length (by omega)
    have e2 : (B ++ A).drop t = B.drop t ++ A := List.drop_append_of_le_length (by omega)
    have h := move_gap_left (B.take t) (B.drop t) G A k
      (by intro hn; have := congrArg List.length hn
          simp only [List.length_take, List.length_drop, List.length_nil] at this; omega)
      (by rw [List.take_append_drop, ht]; simp; omega)
    rw [List.take_append_drop] at h
    rw [e1, e2]
    exact ⟨_, by simp, h⟩
  · subst heq
    refine ⟨G, rfl, ?_⟩
    rw [move_gap_stay B G A k ht, take_app_len rfl, drop_app_len rfl]
  · have e1 : (B ++ A).take t = B ++ A.take (t - B.length) := by
      rw [List.take_append_eq_append_take, List.take_of_length_le (by omega)]
    have e2 : (B ++ A).drop t = A.drop (t - B.length) := by
      rw [List.drop_append_eq_append_drop, List.drop_eq_nil_of_le (by omega), List.nil_append]
    have h := move_gap_right B G (A.take (t - B.length)) (A.drop (t - B.length)) k
      (by intro hn; have := congrArg List.length hn
          simp only [List.length_take, List.length_drop, List.length_nil] at this; omega)
      (by rw [List.take_append_drop, ht]; simp only [List.length_append, List.length_take]
          push_cast; omega)
    rw [List.take_append_drop] at h
    rw [e1, e2]
    exact ⟨_, by simp, h⟩

theorem insert_char_layout_cons (B G A : List Nat) (g c : Nat) :
    insert_char (layout B (g :: G) A) c = layout (B ++ [c]) G A := by
  unfold insert_char
  simp only [layout]
  rw [if_neg (by simp; omega)]
  simp only [wr, GapBuffer.mk.injEq, List.length_append, List.length_cons, List.length_nil]
  refine ⟨?_, ?_, ?_, ?_, ?_⟩
  · rw [if_neg (by omega), Int.toNat_ofNat]
    simp
  all_goals (push_cast; omega)

theorem insert_char_layout_nil (B A : List Nat) (c : Nat) :
    insert_char (layout B [] A) c = layout (B ++ [c]) (List.replicate 511 0) A := by
  have h : insert_char (layout B [] A) c = insert_char (grow_buffer (layout B [] A)) c := by
    unfold insert_char
    have e1 : (layout B [] A).gap_start = (layout B [] A).gap_end := by simp [layout]
    have e2 : (grow_buffer (layout B [] A)).gap_start ≠ (grow_buffer (layout B [] A)).gap_end := by
      rw [grow_buffer_layout]; simp only [layout, List.length_replicate]; omega
    simp only [if_pos e1, if_neg e2]
  rw [h, grow_buffer_layout]
  exact insert_char_layout_cons B (List.replicate 511 0) A 0 c

theorem insert_char_layout (B G A : List Nat) (c : Nat) :
    ∃ G', insert_char (layout B G A) c = layout (B ++ [c]) G' A := by
  cases G with
  | nil => exact ⟨_, insert_char_layout_nil B A c⟩
  | cons g G => exact ⟨_, insert_char_layout_cons B G A g c⟩


theorem WF.exists_layout {gb : GapBuffer} (h : WF gb) : ∃ B G A, gb = layout B G A :=
  let ⟨G, hG⟩ := h.rep
  ⟨_, G, _, hG⟩

theorem create_buffer_layout (cap : Int) :
    create_buffer cap
      = layout [] (List.replicate (if cap ≤ 0 then INITIAL_CAPACITY else cap).toNat 0) [] := by
  have hpos : 0 ≤ (if cap ≤ 0 then INITIAL_CAPACITY else cap) := by
    unfold INITIAL_CAPACITY; split_ifs <;> omega
  simp only [create_buffer, malloc, layout, List.nil_append, List.append_nil, List.length_nil,
    List.length_replicate, GapBuffer.mk.injEq, true_and]
  refine ⟨?_, ?_, ?_, ?_⟩ <;> push_cast <;> omega

theorem load_layout (bs : List Nat) : ∀ B G A : List Nat,
    ∃ G', load (layout B G A) bs = layout (B ++ bs) G' A := by
  induction bs with
  | nil => intro B G A; exact ⟨G, by simp [load]⟩
  | cons b bs ih =>
    intro B G A
    obtain ⟨G₁, h₁⟩ := insert_char_layout B G A b
    obtain ⟨G₂, h₂⟩ := ih (B ++ [b]) G₁ A
    refine ⟨G₂, ?_⟩
    have : load (layout B G A) (b :: bs) = load (insert_char (layout B G A) b) bs := rfl
    rw [this, h₁, h₂, List.append_assoc, List.singleton_append]

theorem insert_string_loop_layout (bs : List Nat) (hbs : ∀ b ∈ bs, b ≠ 0) : ∀ B G A : List Nat,
    ∃ G', insert_string_loop (layout B G A) bs = layout (B ++ bs) G' A := by
  induction bs with
  | nil => intro B G A; exact ⟨G, by simp [insert_string_loop]⟩
  | cons b bs ih =>
    intro B G A
    obtain ⟨G₁, h₁⟩ := insert_char_layout B G A b
    obtain ⟨G₂, h₂⟩ := ih (fun x hx => hbs x (List.mem_cons_of_mem _ hx)) (B ++ [b]) G₁ A
    refine ⟨G₂, ?_⟩
    have hb : b ≠ 0 := hbs b (List.mem_cons_self _ _)
    have : insert_string_loop (layout B G A) (b :: bs)
        = insert_string_loop (insert_char (layout B G A) b) bs := by
      simp [insert_string_loop, hb]
    rw [this, h₁, h₂, List.append_assoc, List.singleton_append]

/-! ## Claims -/

/-- C3 (move_gap): on a state satisfying the invariant, for every integer `k`,
move_gap keeps the logical content, length and capacity, puts gap_start at `k`
clamped into `[0, length]`, keeps the invariant, and a second call with the same
`k` changes nothing (same content, same gap_start, in fact the same state). -/
theorem move_gap_spec (gb : GapBuffer) (k : Int) (h : WF gb) :
    save_file (move_gap gb k) = save_file gb ∧
    (move_gap gb k).length = gb.length ∧
    (move_gap gb k).capacity = gb.capacity ∧
    (move_gap gb k).gap_start = max 0 (min k gb.length) ∧
    WF (move_gap gb k) ∧
    save_file (move_gap (move_gap gb k) k) = save_file (move_gap gb k) ∧
    (move_gap (move_gap gb k) k).gap_start = (move_gap gb k).gap_start ∧
    move_gap (move_gap gb k) k = move_gap gb k := by
  obtain ⟨B, G, A, rfl⟩ := h.exists_layout
  obtain ⟨G', hlen, hG'⟩ := move_gap_layout B G A k
  obtain ⟨h0, h1⟩ := clamp_bounds k (B.length + A.length : Nat) (by omega)
  have hc := clamp_eq k (B.length + A.length : Nat) (by omega)
  have hidem : move_gap (move_gap (layout B G A) k) k = move_gap (layout B G A) k := by
    rw [hG']
    apply move_gap_stay
    simp only [List.length_take, List.length_drop, List.length_append]
    rw [show (min (clamp k ↑(B.length + A.length)).toNat (B.length + A.length) +
        (B.length + A.length - (clamp k ↑(B.length + A.length)).toNat) : Nat)
        = B.length + A.length by omega]
    omega
  rw [hidem]
  refine ⟨?_, ?_, ?_, ?_, ?_, rfl, rfl, rfl⟩
  · rw [hG', save_file_layout, save_file_layout, List.take_append_drop]
  · rw [hG']
    simp only [layout, List.length_take, List.length_drop, List.length_append]
    push_cast; omega
  · rw [hG']
    simp only [layout, List.length_take, List.length_drop, List.length_append]
    push_cast; omega
  · rw [hG']
    simp only [layout, List.length_take, List.length_append]
    push_cast at hc h1 ⊢
    rw [← hc]
    omega
  · rw [hG']; exact WF_layout _ _ _

/-- Witness of C3: a gap at the end of a five-byte region moved to offset 1. -/
theorem move_gap_spec_witness :
    WF (layout [97, 98, 99] [0, 0] []) ∧
    save_file (move_gap (layout [97, 98, 99] [0, 0] []) 1) = [97, 98, 99] ∧
    (move_gap (layout [97, 98, 99] [0, 0] []) 1).gap_start = 1 :=
  ⟨by decide,
   (move_gap_spec (layout [97, 98, 99] [0, 0] []) 1 (by decide)).1.trans (by decide),
   (move_gap_spec (layout [97, 98, 99] [0, 0] []) 1 (by decide)).2.2.2.1.trans (by decide)⟩


theorem rd_append_cons (P S : List Nat) (b : Nat) (p : Int) (hp : p = P.length) :
    rd (P ++ b :: S) p = b := by
  subst hp
  unfold rd
  rw [if_neg (by omega), Int.toNat_ofNat, List.getD_eq_getElem?_getD,
    List.getElem?_append_right (Nat.le_refl _)]
  simp

theorem scan_lines_seg (buf : List Nat) (limit target : Int) (seg : List Nat) :
    ∀ (P S : List Nat) (p line : Int) (fuel : Nat),
      buf = P ++ (seg ++ S) → p = P.length → limit = P.length + seg.length →
      seg.length ≤ fuel → line < target →
      ((seg.count 10 : Int) < target - line →
          scan_lines buf limit target fuel p line = Sum.inr (line + seg.count 10 : Int)) ∧
      (target - line ≤ (seg.count 10 : Int) →
          ∃ pre post, seg = pre ++ 10 :: post ∧ (pre.count 10 : Int) = target - line - 1 ∧
            scan_lines buf limit target fuel p line = Sum.inl (p + pre.length + 1 : Int)) := by
  induction seg with
  | nil =>
    intro P S p line fuel hbuf hp hlim hfuel hline
    have hnot : ¬ p < limit := by simp at hlim; omega
    refine ⟨fun _ => ?_, fun h => ?_⟩
    · cases fuel with
      | zero => simp [scan_lines]
      | succ f => simp [scan_lines, hnot]
    · simp at h; omega
  | cons b seg ih =>
    intro P S p line fuel hbuf hp hlim hfuel hline
    obtain ⟨f, rfl⟩ : ∃ f, fuel = f + 1 := ⟨fuel - 1, by simp at hfuel; omega⟩
    have hlt : p < limit := by simp at hlim; omega
    have hrd : rd buf p = b := by rw [hbuf]; exact rd_append_cons P _ b p hp
    have hbuf' : buf = (P ++ [b]) ++ (seg ++ S) := by rw [hbuf]; simp
    have hih := fun line' (hl : line' < target) =>
      ih (P ++ [b]) S (p + 1) line' f hbuf' (by simp; omega) (by simp at hlim ⊢; omega)
        (by simp at hfuel; omega) hl
    by_cases hb : b = 10
    · subst hb
      by_cases ht : line + 1 = target
      · refine ⟨fun h => ?_, fun _ => ⟨[], seg, rfl, by simp; omega, ?_⟩⟩
        · simp at h; omega
        · simp [scan_lines, hlt, hrd, ht]
      · have hstep : scan_lines buf limit target (f + 1) p line
            = scan_lines buf limit target f (p + 1) (line + 1) := by
          simp [scan_lines, hlt, hrd, ht]
        obtain ⟨h1, h2⟩ := hih (line + 1) (by omega)
        rw [hstep]
        refine ⟨fun h => ?_, fun h => ?_⟩
        · rw [h1 (by simp at h ⊢; omega)]
          simp; omega
        · obtain ⟨pre, post, hseg, hcnt, hres⟩ := h2 (by simp at h ⊢; omega)
          refine ⟨10 :: pre, post, by rw [hseg]; rfl, by simp; omega, ?_⟩
          rw [hres]; simp; omega
    · have hstep : scan_lines buf limit target (f + 1) p line
          = scan_lines buf limit target f (p + 1) line := by
        simp [scan_lines, hlt, hrd, hb]
      obtain ⟨h1, h2⟩ := hih line hline
      rw [hstep]
      have hcount : (b :: seg).count 10 = seg.count 10 := by
        rw [List.count_cons]; simp [hb]
      rw [hcount]
      refine ⟨fun h => h1 h, fun h => ?_⟩
      obtain ⟨pre, post, hseg, hcnt, hres⟩ := h2 h
      refine ⟨b :: pre, post, by rw [hseg]; rfl, ?_, ?_⟩
      · rw [List.count_cons]; simp [hb]; omega
      · rw [hres]; simp; omega


theorem find_line_offset_layout (B G A : List Nat) (n : Int) (hn : 1 < n) :
    (((B ++ A).count 10 : Int) < n - 1 →
        find_line_offset (layout B G A) n = (B ++ A).length) ∧
    (n - 1 ≤ ((B ++ A).count 10 : Int) →
        ∃ pre post, B ++ A = pre ++ 10 :: post ∧ (pre.count 10 : Int) = n - 2 ∧
          find_line_offset (layout B G A) n = pre.length + 1) := by
  obtain ⟨b1, b2⟩ := scan_lines_seg (B ++ (G ++ A)) (B.length : Int) n B [] (G ++ A) 0 1
    B.length rfl rfl (by simp) (Nat.le_refl _) hn
  have hdef : find_line_offset (layout B G A) n =
      match scan_lines (B ++ (G ++ A)) (B.length : Int) n B.length 0 1 with
      | Sum.inl pos => pos
      | Sum.inr line =>
        match scan_lines (B ++ (G ++ A)) ((B.length : Int) + G.length + A.length) n
            A.length ((B.length : Int) + G.length) line with
        | Sum.inl post => (B.length : Int) + (post - ((B.length : Int) + G.length))
        | Sum.inr _ => (B.length : Int) + A.length := by
    unfold find_line_offset
    rw [if_neg (by omega)]
    simp only [layout, Int.toNat_ofNat]
    rw [show ((B.length : Int) + G.length + A.length - (B.length + G.length)).toNat = A.length
      by omega]
  rw [hdef]
  simp only [List.count_append, List.length_append]
  by_cases hB : (B.count 10 : Int) < n - 1
  · rw [b1 hB]
    simp only
    obtain ⟨a1, a2⟩ := scan_lines_seg (B ++ (G ++ A)) ((B.length : Int) + G.length + A.length)
      n A (B ++ G) [] ((B.length : Int) + G.length) (1 + B.count 10)
      A.length (by simp) (by simp) (by simp) (Nat.le_refl _) (by omega)
    refine ⟨fun h => ?_, fun h => ?_⟩
    · rw [a1 (by push_cast at h; omega)]
      simp only; push_cast; rfl
    · obtain ⟨pre, post, hA, hcnt, hres⟩ := a2 (by push_cast at h; omega)
      refine ⟨B ++ pre, post, by rw [hA]; simp, by simp; omega, ?_⟩
      rw [hres]
      show (B.length : Int) + ((B.length : Int) + G.length + pre.length + 1
        - ((B.length : Int) + G.length)) = ((B ++ pre).length : Int) + 1
      simp only [List.length_append]
      push_cast; omega
  · obtain ⟨pre, post, hB', hcnt, hres⟩ := b2 (by omega)
    rw [hres]
    simp only
    refine ⟨fun h => ?_, fun _ => ⟨pre, post ++ A, by rw [hB']; simp, by omega, ?_⟩⟩
    · push_cast at h; omega
    · show (0 : Int) + pre.length + 1 = pre.length + 1
      omega


theorem offset_after_terminators_few (c : List Nat) :
    ∀ k, c.count 10 < k → offset_after_terminators k c = c.length := by
  induction c with
  | nil => intro k hk; cases k <;> simp [offset_after_terminators] at hk ⊢
  | cons b c ih =>
    intro k hk
    obtain ⟨j, rfl⟩ : ∃ j, k = j + 1 := ⟨k - 1, by omega⟩
    rw [List.count_cons] at hk
    by_cases hb : b = 10
    · subst hb
      simp only [offset_after_terminators, if_true, List.length_cons]
      rw [ih j (by simp at hk; omega)]; omega
    · simp only [offset_after_terminators, if_neg hb, List.length_cons]
      rw [ih (j + 1) (by simp [hb] at hk; omega)]; omega

theorem offset_after_terminators_split (pre post : List Nat) :
    ∀ k, pre.count 10 = k →
      offset_after_terminators (k + 1) (pre ++ 10 :: post) = pre.length + 1 := by
  induction pre with
  | nil => intro k hk; simp at hk; subst hk; simp [offset_after_terminators]
  | cons b pre ih =>
    intro k hk
    rw [List.count_cons] at hk
    by_cases hb : b = 10
    · subst hb
      obtain ⟨j, rfl⟩ : ∃ j, k = j + 1 := ⟨k - 1, by simp at hk; omega⟩
      have e : offset_after_terminators (j + 1 + 1) (10 :: pre ++ 10 :: post)
          = 1 + offset_after_terminators (j + 1) (pre ++ 10 :: post) := by
        simp [offset_after_terminators]
      rw [e, ih j (by simp at hk; omega), List.length_cons]; omega
    · have e : offset_after_terminators (k + 1) (b :: pre ++ 10 :: post)
          = 1 + offset_after_terminators (k + 1) (pre ++ 10 :: post) := by
        simp [offset_after_terminators, hb]
      rw [e, ih k (by simp [hb] at hk; omega), List.length_cons]; omega

theorem find_line_offset_eq_spec_layout (B G A : List Nat) (n : Int) :
    find_line_offset (layout B G A) n = line_offset_spec (B ++ A) n := by
  by_cases hn : n ≤ 1
  · rw [line_offset_spec, if_pos hn]; unfold find_line_offset; rw [if_pos hn]
  · obtain ⟨f1, f2⟩ := find_line_offset_layout B G A n (by omega)
    rw [line_offset_spec, if_neg hn]
    by_cases hc : ((B ++ A).count 10 : Int) < n - 1
    · rw [f1 hc, offset_after_terminators_few _ _ (by omega)]
    · obtain ⟨pre, post, hsplit, hcnt, hres⟩ := f2 (by omega)
      obtain ⟨k, hk⟩ : ∃ k, (n - 1).toNat = k + 1 := ⟨(n - 1).toNat - 1, by omega⟩
      rw [hres, hsplit, hk, offset_after_terminators_split pre post k (by omega)]
      push_cast; rfl

/-- C6 (find_line_offset): on a state satisfying the invariant, wherever the gap
is, find_line_offset is a function of the saved content `c` alone (it equals
`line_offset_spec c n`); it is 0 for `n <= 1`; for `n > 1`, when `c` has at
least `n - 1` newlines it is the offset just after the `(n-1)`-th one (`c` splits
as `pre ++ '\n' :: post` with `n - 2` newlines in `pre`, and the result is
`|pre| + 1`); and when `c` has fewer than `n - 1` newlines it is `length`, the
number of bytes of `c`. -/
theorem find_line_offset_spec (gb : GapBuffer) (n : Int) (h : WF gb) :
    find_line_offset gb n = line_offset_spec (save_file gb) n ∧
    (n ≤ 1 → find_line_offset gb n = 0) ∧
    (1 < n → n - 1 ≤ ((save_file gb).count 10 : Int) →
      ∃ pre post, save_file gb = pre ++ 10 :: post ∧ (pre.count 10 : Int) = n - 2 ∧
        find_line_offset gb n = pre.length + 1) ∧
    (1 < n → ((save_file gb).count 10 : Int) < n - 1 →
      find_line_offset gb n = gb.length ∧ gb.length = (save_file gb).length) := by
  obtain ⟨B, G, A, rfl⟩ := h.exists_layout
  rw [save_file_layout]
  have h0 : n ≤ 1 → find_line_offset (layout B G A) n = 0 := fun hn => by
    unfold find_line_offset; rw [if_pos hn]
  refine ⟨find_line_offset_eq_spec_layout B G A n, h0, ?_, ?_⟩
  · intro hn hc
    exact (find_line_offset_layout B G A n hn).2 hc
  · intro hn hc
    refine ⟨?_, ?_⟩
    · rw [(find_line_offset_layout B G A n hn).1 hc]; simp [layout]
    · simp [layout]

/-- Witness of C6: line 1000 of the three-line document `"1\n2\n3\n"` (gap after
the second line) is at offset 6, the length of the document. -/
theorem find_line_offset_spec_witness :
    WF (layout [49, 10, 50, 10] [0, 0] [51, 10]) ∧
    find_line_offset (layout [49, 10, 50, 10] [0, 0] [51, 10]) 1000 = 6 ∧
    find_line_offset (layout [49, 10, 50, 10] [0, 0] [51, 10]) 3 = 4 :=
  ⟨by decide,
   ((find_line_offset_spec (layout [49, 10, 50, 10] [0, 0] [51, 10]) 1000 (by decide)).2.2.2
      (by decide) (by decide)).1.trans (by decide),
   (find_line_offset_spec (layout [49, 10, 50, 10] [0, 0] [51, 10]) 3 (by decide)).1.trans
      (by decide)⟩


theorem line_span_nil : line_span [] = 0 := by simp [line_span]

theorem line_span_cons_nl (A : List Nat) : line_span (10 :: A) = 1 := by
  simp [line_span]

theorem line_span_cons_ne (b : Nat) (A : List Nat) (hb : b ≠ 10) :
    line_span (b :: A) = line_span A + 1 := by
  have hb' : ¬ 10 = b := fun h => hb h.symm
  unfold line_span
  by_cases hm : 10 ∈ A
  · rw [if_pos hm, if_pos (List.mem_cons_of_mem _ hm), List.indexOf_cons_ne _ hb]
  · rw [if_neg hm, if_neg (by simp [hm, hb']), List.length_cons]

theorem line_span_le (A : List Nat) : line_span A ≤ A.length := by
  unfold line_span
  split_ifs with hm
  · exact Nat.succ_le_of_lt (List.indexOf_lt_length.mpr hm)
  · exact Nat.le_refl _

theorem find_line_offset_bounds (B G A : List Nat) (n : Int) :
    0 ≤ find_line_offset (layout B G A) n ∧
      find_line_offset (layout B G A) n ≤ ((B ++ A).length : Int) := by
  by_cases hn : n ≤ 1
  · have : find_line_offset (layout B G A) n = 0 := by unfold find_line_offset; rw [if_pos hn]
    rw [this]; omega
  · obtain ⟨f1, f2⟩ := find_line_offset_layout B G A n (by omega)
    by_cases hc : ((B ++ A).count 10 : Int) < n - 1
    · rw [f1 hc]; omega
    · obtain ⟨pre, post, hsplit, -, hres⟩ := f2 (by omega)
      rw [hres, hsplit]
      simp only [List.length_append, List.length_cons]; push_cast; omega

theorem move_gap_to_line (B G A : List Nat) (n : Int) :
    ∃ G', G'.length = G.length ∧
      move_gap (layout B G A) (find_line_offset (layout B G A) n)
        = layout ((B ++ A).take (find_line_offset (layout B G A) n).toNat) G'
            ((B ++ A).drop (find_line_offset (layout B G A) n).toNat) := by
  obtain ⟨h0, h1⟩ := find_line_offset_bounds B G A n
  obtain ⟨G', hl, hG'⟩ := move_gap_layout B G A (find_line_offset (layout B G A) n)
  have hc : clamp (find_line_offset (layout B G A) n) (B.length + A.length : Nat)
      = find_line_offset (layout B G A) n := by
    rw [clamp_eq _ _ (by omega)]
    simp only [List.length_append] at h1
    omega
  rw [hc] at hG'
  exact ⟨G', hl, hG'⟩

theorem delete_step_layout (B G A : List Nat) (a : Nat) :
    ({ layout B G (a :: A) with
        gap_end := (layout B G (a :: A)).gap_end + 1
        length := (layout B G (a :: A)).length - 1 } : GapBuffer) = layout B (G ++ [a]) A := by
  simp only [layout, GapBuffer.mk.injEq, List.length_append, List.length_cons, List.length_nil,
    List.append_assoc, List.singleton_append, true_and]
  refine ⟨?_, ?_, ?_⟩ <;> push_cast <;> omega

theorem delete_line_loop_layout (B : List Nat) (A : List Nat) :
    ∀ (G : List Nat) (fuel : Nat), A.length ≤ fuel →
      delete_line_loop fuel (layout B G A)
        = layout B (G ++ A.take (line_span A)) (A.drop (line_span A)) := by
  induction A with
  | nil =>
    intro G fuel _
    have hno : ¬ (layout B G []).gap_end < (layout B G []).capacity := by simp [layout]
    rw [line_span_nil]
    cases fuel with
    | zero => simp [delete_line_loop]
    | succ f => simp [delete_line_loop, hno]
  | cons a A ih =>
    intro G fuel hf
    obtain ⟨f, rfl⟩ : ∃ f, fuel = f + 1 := ⟨fuel - 1, by simp at hf; omega⟩
    have hlt : (layout B G (a :: A)).gap_end < (layout B G (a :: A)).capacity := by
      simp [layout]
    have hrd : rd (layout B G (a :: A)).buffer (layout B G (a :: A)).gap_end = a := by
      have := rd_append_cons (B ++ G) A a ((B.length : Int) + G.length) (by simp)
      simpa [layout] using this
    have hstep := delete_step_layout B G A a
    by_cases ha : a = 10
    · subst ha
      rw [line_span_cons_nl]
      simp only [delete_line_loop, if_pos hlt, hrd, if_true, hstep]
      simp
    · rw [line_span_cons_ne a A ha]
      simp only [delete_line_loop, if_pos hlt, hrd, if_neg ha, hstep]
      rw [ih (G ++ [a]) f (by simp at hf; omega)]
      simp


theorem delete_line_layout (B G A : List Nat) (n : Int) :
    ∃ G', delete_line (layout B G A) n
      = layout ((B ++ A).take (find_line_offset (layout B G A) n).toNat) G'
          (((B ++ A).drop (find_line_offset (layout B G A) n).toNat).drop
            (line_span ((B ++ A).drop (find_line_offset (layout B G A) n).toNat))) := by
  obtain ⟨G₁, -, hG₁⟩ := move_gap_to_line B G A n
  generalize hs : (find_line_offset (layout B G A) n).toNat = s at hG₁ ⊢
  generalize hR : (B ++ A).drop s = R at hG₁ ⊢
  generalize hL : (B ++ A).take s = L at hG₁ ⊢
  have hdef : delete_line (layout B G A) n =
      if (layout L G₁ R).gap_end < (layout L G₁ R).capacity then
        delete_line_loop ((layout L G₁ R).capacity - (layout L G₁ R).gap_end).toNat (layout L G₁ R)
      else layout L G₁ R := by
    unfold delete_line
    simp only [hG₁]
  rw [hdef]
  have hfuel : ((layout L G₁ R).capacity - (layout L G₁ R).gap_end).toNat = R.length := by
    simp only [layout]; omega
  rw [hfuel]
  by_cases hlt : (layout L G₁ R).gap_end < (layout L G₁ R).capacity
  · rw [if_pos hlt, delete_line_loop_layout L R G₁ R.length (Nat.le_refl _)]
    exact ⟨_, rfl⟩
  · rw [if_neg hlt]
    have hR0 : R = [] := by
      simp only [layout] at hlt
      exact List.length_eq_zero.mp (by omega)
    subst hR0
    exact ⟨G₁, by simp⟩

/-- C7 (single-line delete): on a state satisfying the invariant with saved content
`c`, the `:d n` command leaves `c` with exactly the bytes `[s, e)` removed, where
`s = find_line_offset(n)` and `e` is the offset just after the first `'\n'` at or
after `s` (the length of `c` when there is none); the other bytes keep their
order, the gap sits at `s`, and the invariant is kept. -/
theorem delete_line_spec (gb : GapBuffer) (n : Int) (h : WF gb) :
    save_file (delete_line gb n)
      = (save_file gb).take (find_line_offset gb n).toNat ++
          (save_file gb).drop ((find_line_offset gb n).toNat +
            line_span ((save_file gb).drop (find_line_offset gb n).toNat)) ∧
    (delete_line gb n).gap_start = find_line_offset gb n ∧
    WF (delete_line gb n) := by
  obtain ⟨B, G, A, rfl⟩ := h.exists_layout
  obtain ⟨G', hG'⟩ := delete_line_layout B G A n
  obtain ⟨h0, h1⟩ := find_line_offset_bounds B G A n
  rw [hG', save_file_layout, save_file_layout]
  generalize find_line_offset (layout B G A) n = s at h0 h1 ⊢
  refine ⟨?_, ?_, WF_layout _ _ _⟩
  · rw [List.drop_drop, Nat.add_comm]
  · simp only [layout, List.length_take]
    omega

/-- Witness of C7: deleting line 2 of `"a\nbb\nccc\n"` gives `"a\nccc\n"`. -/
theorem delete_line_spec_witness :
    WF (load (create_buffer 16) [97, 10, 98, 98, 10, 99, 99, 99, 10]) ∧
    save_file (delete_line (load (create_buffer 16) [97, 10, 98, 98, 10, 99, 99, 99, 10]) 2)
      = [97, 10, 99, 99, 99, 10] :=
  ⟨by decide,
   (delete_line_spec (load (create_buffer 16) [97, 10, 98, 98, 10, 99, 99, 99, 10]) 2
      (by decide)).1.trans (by decide)⟩


theorem truncate_layout (B G A : List Nat) :
    ({ layout B G A with length := (layout B G A).gap_start, gap_end := (layout B G A).capacity }
      : GapBuffer) = layout B (G ++ A) [] := by
  simp only [layout, GapBuffer.mk.injEq, List.length_append, List.length_nil, List.append_nil,
    true_and]
  refine ⟨?_, ?_, ?_⟩ <;> push_cast <;> omega

theorem delete_to_end_layout (B G A : List Nat) (n : Int) :
    ∃ G', delete_to_end (layout B G A) n
      = layout ((B ++ A).take (find_line_offset (layout B G A) n).toNat) G' [] := by
  obtain ⟨G₁, -, hG₁⟩ := move_gap_to_line B G A n
  refine ⟨G₁ ++ (B ++ A).drop (find_line_offset (layout B G A) n).toNat, ?_⟩
  unfold delete_to_end
  simp only [hG₁]
  exact truncate_layout _ _ _

/-- C9 (delete to end): on a state satisfying the invariant with saved content `c`,
the `:d *n` command leaves exactly the first `find_line_offset(n)` bytes of `c`,
with an empty after-gap segment (`gap_end == capacity`) and
`length == gap_start`; the invariant is kept. -/
theorem delete_to_end_spec (gb : GapBuffer) (n : Int) (h : WF gb) :
    save_file (delete_to_end gb n) = (save_file gb).take (find_line_offset gb n).toNat ∧
    after_gap (delete_to_end gb n) = [] ∧
    (delete_to_end gb n).gap_end = (delete_to_end gb n).capacity ∧
    (delete_to_end gb n).length = (delete_to_end gb n).gap_start ∧
    WF (delete_to_end gb n) := by
  obtain ⟨B, G, A, rfl⟩ := h.exists_layout
  obtain ⟨G', hG'⟩ := delete_to_end_layout B G A n
  rw [hG', save_file_layout, save_file_layout, after_gap_layout]
  refine ⟨by simp, rfl, ?_, ?_, WF_layout _ _ _⟩
  · simp only [layout, List.length_nil]; push_cast; omega
  · simp only [layout, List.length_nil]; push_cast; omega

/-- Witness of C9: deleting from line 2 of `"1\n2\n3\n"` gives `"1\n"`. -/
theorem delete_to_end_spec_witness :
    WF (load (create_buffer 16) [49, 10, 50, 10, 51, 10]) ∧
    save_file (delete_to_end (load (create_buffer 16) [49, 10, 50, 10, 51, 10]) 2)
      = [49, 10] :=
  ⟨by decide,
   (delete_to_end_spec (load (create_buffer 16) [49, 10, 50, 10, 51, 10]) 2
      (by decide)).1.trans (by decide)⟩


theorem offset_after_terminators_mono (c : List Nat) :
    ∀ k k', k ≤ k' → offset_after_terminators k c ≤ offset_after_terminators k' c := by
  induction c with
  | nil => intro k k' _; cases k <;> cases k' <;> simp [offset_after_terminators]
  | cons b c ih =>
    intro k k' hk
    cases k with
    | zero => simp [offset_after_terminators]
    | succ j =>
      obtain ⟨j', rfl⟩ : ∃ j', k' = j' + 1 := ⟨k' - 1, by omega⟩
      simp only [offset_after_terminators]
      split_ifs
      · have := ih j j' (by omega); omega
      · have := ih (j + 1) (j' + 1) (by omega); omega

theorem line_offset_spec_mono (c : List Nat) (n m : Int) (h : n ≤ m) :
    line_offset_spec c n ≤ line_offset_spec c m := by
  unfold line_offset_spec
  split_ifs with h1 h2 h2
  · exact le_refl _
  · exact Int.ofNat_nonneg _
  · omega
  · exact Int.ofNat_le.mpr (offset_after_terminators_mono c _ _ (by omega))

theorem find_line_offset_mono (B G A : List Nat) (n m : Int) (hnm : n ≤ m) :
    find_line_offset (layout B G A) n ≤ find_line_offset (layout B G A) m := by
  rw [find_line_offset_eq_spec_layout, find_line_offset_eq_spec_layout]
  exact line_offset_spec_mono _ n m hnm

theorem extend_gap_layout (B G A : List Nat) (d : Int) (h0 : 0 ≤ d) (h1 : d ≤ A.length) :
    ({ layout B G A with
        length := (layout B G A).length - d
        gap_end := (layout B G A).gap_end + d } : GapBuffer)
      = layout B (G ++ A.take d.toNat) (A.drop d.toNat) := by
  obtain ⟨k, rfl⟩ := Int.eq_ofNat_of_zero_le h0
  have hk : k ≤ A.length := by omega
  simp only [layout, Int.toNat_ofNat, GapBuffer.mk.injEq, List.length_append, List.length_take,
    List.length_drop, List.append_assoc, List.take_append_drop, true_and]
  refine ⟨?_, ?_, ?_⟩ <;> push_cast <;> omega

theorem wrap32_of_range (v : Int) (h0 : -2147483648 ≤ v) (h1 : v < 2147483648) :
    wrap32 v = v := by
  unfold wrap32; omega

/-- The range delete when `y + 1` does not overflow (`y < 2^31 - 1`): on a state
satisfying the invariant with saved content `c` and `x <= y`, the saved content
becomes `c[0, start) ++ c[end, length)` with `start = find_line_offset(x)` and
`end = find_line_offset(y + 1)`, gap_start is `start`, and the invariant is kept. -/
theorem delete_range_no_overflow (gb : GapBuffer) (x y : Int) (h : WF gb) (hxy : x ≤ y)
    (hy0 : -2147483648 ≤ y) (hy : y < 2147483647) :
    save_file (delete_range gb x y)
      = (save_file gb).take (find_line_offset gb x).toNat ++
          (save_file gb).drop (find_line_offset gb (y + 1)).toNat ∧
    (delete_range gb x y).gap_start = find_line_offset gb x ∧
    find_line_offset gb x ≤ find_line_offset gb (y + 1) ∧
    WF (delete_range gb x y) := by
  obtain ⟨B, G, A, rfl⟩ := h.exists_layout
  have hmono := find_line_offset_mono B G A x (y + 1) (by omega)
  obtain ⟨G₁, -, hG₁⟩ := move_gap_to_line B G A x
  obtain ⟨s0, s1⟩ := find_line_offset_bounds B G A x
  obtain ⟨e0, e1⟩ := find_line_offset_bounds B G A (y + 1)
  have hdef : delete_range (layout B G A) x y =
      { move_gap (layout B G A) (find_line_offset (layout B G A) x) with
        length := (move_gap (layout B G A) (find_line_offset (layout B G A) x)).length
          - (find_line_offset (layout B G A) (y + 1) - find_line_offset (layout B G A) x)
        gap_end := (move_gap (layout B G A) (find_line_offset (layout B G A) x)).gap_end
          + (find_line_offset (layout B G A) (y + 1) - find_line_offset (layout B G A) x) } := by
    unfold delete_range
    rw [wrap32_of_range (y + 1) (by omega) (by omega)]
  rw [hdef, hG₁, save_file_layout]
  generalize find_line_offset (layout B G A) x = s at *
  generalize find_line_offset (layout B G A) (y + 1) = e at *
  rw [extend_gap_layout _ _ _ (e - s) (by omega)
    (by simp only [List.length_drop, List.length_append] at e1 ⊢; omega)]
  refine ⟨?_, ?_, hmono, WF_layout _ _ _⟩
  · rw [save_file_layout, List.drop_drop]
    congr 2
    omega
  · simp only [layout, List.length_take]; omega

/-- Witness of the range delete without overflow: deleting the range [2,4] of
`"1\n2\n3\n4\n5\n"` gives `"1\n5\n"`. -/
theorem delete_range_no_overflow_witness :
    WF (load (create_buffer 16) [49, 10, 50, 10, 51, 10, 52, 10, 53, 10]) ∧
    save_file (delete_range (load (create_buffer 16)
        [49, 10, 50, 10, 51, 10, 52, 10, 53, 10]) 2 4) = [49, 10, 53, 10] :=
  ⟨by decide,
   (delete_range_no_overflow (load (create_buffer 16)
      [49, 10, 50, 10, 51, 10, 52, 10, 53, 10]) 2 4 (by decide) (by decide) (by decide)
      (by decide)).1.trans (by decide)⟩


theorem WF_insert_char (gb : GapBuffer) (c : Nat) (h : WF gb) : WF (insert_char gb c) := by
  obtain ⟨B, G, A, rfl⟩ := h.exists_layout
  obtain ⟨G', hG'⟩ := insert_char_layout B G A c
  rw [hG']; exact WF_layout _ _ _

theorem WF_insert_string (str : Option (List Nat)) :
    ∀ gb : GapBuffer, WF gb → WF (insert_string gb str) := by
  cases str with
  | none => intro gb h; exact h
  | some s =>
    induction s with
    | nil => intro gb h; exact h
    | cons c cs ih =>
      intro gb h
      by_cases hc : c = 0
      · simpa [insert_string, insert_string_loop, hc] using h
      · have := ih (insert_char gb c) (WF_insert_char gb c h)
        simpa [insert_string, insert_string_loop, hc] using this

theorem WF_move_gap (gb : GapBuffer) (k : Int) (h : WF gb) : WF (move_gap gb k) := by
  obtain ⟨B, G, A, rfl⟩ := h.exists_layout
  obtain ⟨G', -, hG'⟩ := move_gap_layout B G A k
  rw [hG']; exact WF_layout _ _ _

theorem WF_delete_line (gb : GapBuffer) (n : Int) (h : WF gb) : WF (delete_line gb n) := by
  obtain ⟨B, G, A, rfl⟩ := h.exists_layout
  obtain ⟨G', hG'⟩ := delete_line_layout B G A n
  rw [hG']; exact WF_layout _ _ _

theorem WF_delete_to_end (gb : GapBuffer) (n : Int) (h : WF gb) :
    WF (delete_to_end gb n) := by
  obtain ⟨B, G, A, rfl⟩ := h.exists_layout
  obtain ⟨G', hG'⟩ := delete_to_end_layout B G A n
  rw [hG']; exact WF_layout _ _ _

theorem WF_copy_indent (fuel : Nat) :
    ∀ (gb gb' : GapBuffer) (copy_pos : Int), WF gb →
      copy_indent fuel gb copy_pos = some gb' → WF gb' := by
  induction fuel with
  | zero => intro gb gb' cp _ h; simp [copy_indent] at h
  | succ f ih =>
    intro gb gb' cp hwf h
    unfold copy_indent at h
    split at h
    · cases h; exact hwf
    · split_ifs at h
      · cases h; exact hwf
      · exact ih _ _ _ (WF_insert_char gb _ hwf) h

theorem WF_auto_indent (fuel : Nat) (gb gb' : GapBuffer) (h : WF gb)
    (hr : auto_indent fuel gb = some gb') : WF gb' := by
  unfold auto_indent at hr
  split_ifs at hr
  · cases hr; exact h
  · exact WF_copy_indent fuel gb gb' _ h hr

/-- Every state reachable without the overflowing range delete (all range
deletes have `y < 2^31 - 1`) satisfies the invariant. -/
theorem WF_of_reachable_below_int_max (gb : GapBuffer) (h : ReachableUpTo 2147483646 gb) :
    WF gb := by
  induction h with
  | created cap => rw [create_buffer_layout]; exact WF_layout _ _ _
  | inserted_char c _ ih => exact WF_insert_char _ c ih
  | inserted_string str _ ih => exact WF_insert_string str _ ih
  | moved_gap k _ ih => exact WF_move_gap _ k ih
  | indented fuel _ hr ih => exact WF_auto_indent fuel _ _ ih hr
  | deleted_line n _ ih => exact WF_delete_line _ n ih
  | deleted_range x y hxy hx hy _ ih =>
    exact (delete_range_no_overflow _ x y ih hxy (by omega) (by omega)).2.2.2
  | deleted_to_end n _ ih => exact WF_delete_to_end _ n ih


theorem load_layout_fits (bs : List Nat) : ∀ B G A : List Nat, bs.length ≤ G.length →
    load (layout B G A) bs = layout (B ++ bs) (G.drop bs.length) A := by
  induction bs with
  | nil => intro B G A _; simp [load]
  | cons b bs ih =>
    intro B G A hlen
    cases G with
    | nil => simp at hlen
    | cons g G =>
      have : load (layout B (g :: G) A) (b :: bs) = load (insert_char (layout B (g :: G) A) b) bs := rfl
      rw [this, insert_char_layout_cons, ih _ _ _ (by simpa using hlen)]
      simp

theorem reachable_load (ymax : Int) (bs : List Nat) :
    ∀ gb : GapBuffer, ReachableUpTo ymax gb → ReachableUpTo ymax (load gb bs) := by
  induction bs with
  | nil => intro gb h; exact h
  | cons b bs ih => intro gb h; exact ih _ (ReachableUpTo.inserted_char b h)

theorem doc_513_eq : doc_513 = layout (List.replicate 513 97) (List.replicate 511 0) [] := by
  have h := load_layout_fits (List.replicate 513 97) [] (List.replicate 1024 0) []
    (by simp only [List.length_replicate]; omega)
  rw [List.nil_append, List.length_replicate, List.drop_replicate] at h
  unfold doc_513
  rw [create_buffer_layout]
  exact h

theorem delete_range_overflow_layout (B G : List Nat) (hB : B.count 10 = 0) :
    delete_range (layout B G []) 2 2147483647 =
      { buffer := B ++ (G ++ [])
        gap_start := B.length
        gap_end := (B.length : Int) + G.length + (0 - B.length)
        capacity := (B.length : Int) + G.length + (0 : Nat)
        length := (B.length : Int) + (0 : Nat) - (0 - B.length) } := by
  have hs : find_line_offset (layout B G []) 2 = B.length := by
    rw [(find_line_offset_layout B G [] 2 (by omega)).1 (by rw [List.append_nil, hB]; decide)]
    simp
  have he : find_line_offset (layout B G []) (wrap32 (2147483647 + 1)) = 0 := by
    unfold find_line_offset
    rw [if_pos (by decide)]
  have hm : move_gap (layout B G []) B.length = layout B G [] :=
    move_gap_stay _ _ _ _ (by simp [clamp])
  unfold delete_range
  simp only [hs, he, hm]
  simp only [layout, List.length_nil]

theorem delete_range_doc_513 :
    delete_range doc_513 2 2147483647 =
      { buffer := List.replicate 513 97 ++ (List.replicate 511 0 ++ [])
        gap_start := 513, gap_end := 511, capacity := 1024, length := 1026 } := by
  rw [doc_513_eq, delete_range_overflow_layout _ _ (by rw [List.count_replicate]; decide)]
  simp only [List.length_replicate, GapBuffer.mk.injEq, true_and]
  decide

/-- C1 (invariant on reachable states), refuted on the code: after loading a file
of 513 bytes `'a'` into `create_buffer(1024)`, the range delete `:d *2 2147483647`
(`x = 2 <= y = INT_MAX`, so `y + 1` wraps to `INT_MIN`) reaches a state with
`gap_start = 513 > gap_end = 511` and `length = 1026 > capacity = 1024`: the
state is reachable and violates the invariant. -/
theorem invariant_broken_by_range_overflow :
    Reachable (delete_range doc_513 2 2147483647) ∧
    (delete_range doc_513 2 2147483647).gap_start = 513 ∧
    (delete_range doc_513 2 2147483647).gap_end = 511 ∧
    (delete_range doc_513 2 2147483647).capacity = 1024 ∧
    (delete_range doc_513 2 2147483647).length = 1026 ∧
    ¬ Inv (delete_range doc_513 2 2147483647) := by
  refine ⟨?_, ?_, ?_, ?_, ?_, ?_⟩
  · exact ReachableUpTo.deleted_range 2 2147483647 (by decide) (by decide) (by decide)
      (reachable_load _ _ _ (ReachableUpTo.created 1024))
  · rw [delete_range_doc_513]
  · rw [delete_range_doc_513]
  · rw [delete_range_doc_513]
  · rw [delete_range_doc_513]
  · rw [delete_range_doc_513]
    unfold Inv
    decide

set_option maxRecDepth 100000 in
/-- C8 (inclusive range delete), refuted on the code at `y = INT_MAX`: on the
document `"1\n"` obtained by loading `"1\nXY"` and deleting line 2, the command
`:d *2 2147483647` computes `start = 2` and `end = find_line_offset(INT_MIN) = 0`
and leaves the content `"1\nXY"` (it shrinks the gap over two stale bytes), which
is neither `c[0,start) ++ c[end,length)` for that `end` nor for
`end = find_line_offset(2^31)`. -/
theorem delete_range_overflow_restores_stale_bytes :
    WF doc_after_line_delete ∧
    save_file doc_after_line_delete = [49, 10] ∧
    find_line_offset doc_after_line_delete 2 = 2 ∧
    find_line_offset doc_after_line_delete (wrap32 (2147483647 + 1)) = 0 ∧
    save_file (delete_range doc_after_line_delete 2 2147483647) = [49, 10, 88, 89] ∧
    save_file (delete_range doc_after_line_delete 2 2147483647) ≠
      (save_file doc_after_line_delete).take (find_line_offset doc_after_line_delete 2).toNat ++
        (save_file doc_after_line_delete).drop
          (find_line_offset doc_after_line_delete (wrap32 (2147483647 + 1))).toNat ∧
    save_file (delete_range doc_after_line_delete 2 2147483647) ≠
      (save_file doc_after_line_delete).take (find_line_offset doc_after_line_delete 2).toNat ++
        (save_file doc_after_line_delete).drop
          (find_line_offset doc_after_line_delete (2147483647 + 1)).toNat := by
  decide


theorem gap_read_before (P S G A : List Nat) (b : Nat) (i : Int) (hi : i = P.length) :
    gap_read (layout (P ++ b :: S) G A) i = some b := by
  unfold gap_read
  have hlt : i < (layout (P ++ b :: S) G A).gap_start := by
    simp only [layout, List.length_append, List.length_cons]; push_cast; omega
  rw [if_pos hlt]
  have hbuf : (layout (P ++ b :: S) G A).buffer = P ++ b :: (S ++ (G ++ A)) := by simp [layout]
  rw [hbuf, rd_append_cons P _ b i hi]

theorem copy_indent_run (A : List Nat) (c : Nat) (hc : c ≠ 32 ∧ c ≠ 9) (w : List Nat) :
    ∀ (P S G : List Nat) (fuel : Nat), (∀ x ∈ w, x = 32 ∨ x = 9) → w.length < fuel →
      ∃ G', copy_indent fuel (layout (P ++ (w ++ c :: S)) G A) P.length
        = some (layout ((P ++ (w ++ c :: S)) ++ w) G' A) := by
  induction w with
  | nil =>
    intro P S G fuel _ hfuel
    obtain ⟨f, rfl⟩ : ∃ f, fuel = f + 1 := ⟨fuel - 1, by omega⟩
    refine ⟨G, ?_⟩
    unfold copy_indent
    rw [List.nil_append, gap_read_before P S G A c _ rfl]
    simp [hc]
  | cons x w ih =>
    intro P S G fuel hw hfuel
    obtain ⟨f, rfl⟩ : ∃ f, fuel = f + 1 := ⟨fuel - 1, by omega⟩
    have hx : ¬ (x ≠ 32 ∧ x ≠ 9) := by
      rcases hw x (List.mem_cons_self _ _) with h | h <;> simp [h]
    obtain ⟨G₁, hG₁⟩ := insert_char_layout (P ++ (x :: w ++ c :: S)) G A x
    have hB : (P ++ (x :: w ++ c :: S)) ++ [x] = (P ++ [x]) ++ (w ++ c :: (S ++ [x])) := by
      simp
    obtain ⟨G', hG'⟩ := ih (P ++ [x]) (S ++ [x]) G₁ f
      (fun y hy => hw y (List.mem_cons_of_mem _ hy)) (by simp at hfuel; omega)
    refine ⟨G', ?_⟩
    unfold copy_indent
    rw [show P ++ (x :: w ++ c :: S) = P ++ x :: (w ++ c :: S) by simp] at hG₁ hB ⊢
    rw [gap_read_before P _ G A x _ rfl]
    simp only [if_neg hx]
    rw [hG₁, hB]
    have hpos : (P.length : Int) + 1 = ((P ++ [x]).length : Nat) := by simp
    rw [hpos, hG']
    simp

/-- C12 as stated is refuted: `create_buffer(1)` returns a region of capacity 1,
not `max(1, 1024) = 1024`. -/
theorem create_buffer_not_max :
    (create_buffer 1).capacity = 1 ∧ (create_buffer 1).capacity ≠ max 1 INITIAL_CAPACITY := by
  decide

/-- C12 (amended): for every integer `capacity_hint`, create_buffer returns a
document whose capacity is `capacity_hint` when `capacity_hint > 0` and
INITIAL_CAPACITY = 1024 otherwise (so it is `max(capacity_hint, 1024)` except
for `0 < capacity_hint < 1024`, where it is `capacity_hint`), whose gap spans the whole
region (`gap_start == 0`, `gap_end == capacity`), whose length is 0, and which
satisfies the invariant. -/
theorem create_buffer_spec (capacity_hint : Int) :
    (create_buffer capacity_hint).capacity
      = (if capacity_hint ≤ 0 then 1024 else capacity_hint) ∧
    (create_buffer capacity_hint).capacity
      = (if 0 < capacity_hint ∧ capacity_hint < 1024 then capacity_hint
         else max capacity_hint 1024) ∧
    (create_buffer capacity_hint).gap_start = 0 ∧
    (create_buffer capacity_hint).gap_end = (create_buffer capacity_hint).capacity ∧
    (create_buffer capacity_hint).length = 0 ∧
    save_file (create_buffer capacity_hint) = [] ∧
    WF (create_buffer capacity_hint) := by
  have hcap : (create_buffer capacity_hint).capacity
      = (if capacity_hint ≤ 0 then 1024 else capacity_hint) := rfl
  refine ⟨hcap, ?_, rfl, rfl, rfl, ?_, ?_⟩
  · rw [hcap]
    split_ifs <;> omega
  · rw [create_buffer_layout, save_file_layout]; rfl
  · rw [create_buffer_layout]; exact WF_layout _ _ _

theorem load_tab_newline :
    load (create_buffer 1024) [9, 10] = layout [9, 10] (List.replicate 1022 0) [] := by
  have h := load_layout_fits [9, 10] [] (List.replicate 1024 0) []
    (by simp only [List.length_replicate, List.length_cons, List.length_nil]; omega)
  rw [List.nil_append, List.drop_replicate] at h
  rw [create_buffer_layout]
  exact h

set_option maxRecDepth 100000 in
theorem find_nonempty_line_tab_newline :
    find_nonempty_line (layout [9, 10] (List.replicate 1022 0) []) 2 1 = 0 := by
  decide

theorem auto_indent_tab_newline (n : Nat) :
    ∃ G, auto_indent (n + 2) (load (create_buffer 1024) [9, 10])
      = some (layout [9, 10, 9] G []) := by
  obtain ⟨G, hG⟩ := copy_indent_run [] 10 (by decide) [9] [] [] (List.replicate 1022 0)
    (n + 2) (by decide)
    (by simp only [List.length_singleton]; omega)
  refine ⟨G, ?_⟩
  rw [load_tab_newline]
  unfold auto_indent
  rw [if_neg (by decide)]
  have hfuel : ((layout [9, 10] (List.replicate 1022 0) []).gap_start - 1 + 1).toNat = 2 := by
    decide
  have hpos : (layout [9, 10] (List.replicate 1022 0) []).gap_start - 1 = 1 := by
    decide
  simp only [hfuel, hpos, find_nonempty_line_tab_newline]
  exact hG

set_option maxRecDepth 100000 in
/-- C11 (auto-indent with nothing to copy), refuted on the code: with before-gap
content `"\t\n"` (commands `:t` then `:n` on an empty document) or `"   \n"`, no
line holds a byte other than space or tab, yet auto_indent copies the blanks of
the first line: the documents become `"\t\n\t"` (for every bound of at least 2
on the copy loop) and `"   \n   "`, and gap_start and length grow by 1 and by 3. -/
theorem auto_indent_copies_first_line_blanks :
    WF (load (create_buffer 1024) [9, 10]) ∧
    (∀ n : Nat, (auto_indent (n + 2) (load (create_buffer 1024) [9, 10])).map save_file
      = some [9, 10, 9]) ∧
    (auto_indent 2 (load (create_buffer 1024) [9, 10])).map GapBuffer.gap_start = some 3 ∧
    (auto_indent 2 (load (create_buffer 1024) [9, 10])).map GapBuffer.length = some 3 ∧
    auto_indent 2 (load (create_buffer 1024) [9, 10]) ≠ some (load (create_buffer 1024) [9, 10]) ∧
    WF (load (create_buffer 1024) [32, 32, 32, 10]) ∧
    (auto_indent 4 (load (create_buffer 1024) [32, 32, 32, 10])).map save_file
      = some [32, 32, 32, 10, 32, 32, 32] := by
  refine ⟨by decide, ?_, by decide, by decide, by decide, by decide, by decide⟩
  intro n
  obtain ⟨G, hG⟩ := auto_indent_tab_newline n
  rw [hG, Option.map_some', save_file_layout]
  rfl

theorem doc_full_eq : doc_full = layout file_1024 [] [] := by
  have hlen : file_1024.length = 1024 := by
    simp only [file_1024, List.length_append, List.length_cons, List.length_replicate]
  have h := load_layout_fits file_1024 [] (List.replicate 1024 0) []
    (by rw [hlen, List.length_replicate])
  rw [List.nil_append, hlen, List.drop_replicate] at h
  unfold doc_full
  rw [create_buffer_layout]
  exact h

set_option maxRecDepth 1000000 in
/-- C13 (growth at most once per 512 insertions), refuted on the code: after
loading a file of 1024 bytes whose only newline is byte 511 (the region is full),
`:t` inserts a tab and grows the region to 1536 bytes; the range delete
`:d *2 2147483647` then shrinks the 511-byte gap to nothing (`y + 1` wraps, so
`end - start = -511`), and the very next `:t` grows the region again, to 2048
bytes: two growths separated by a single insertion. -/
theorem growth_again_after_one_insertion :
    WF doc_full ∧ doc_full.gap_start = doc_full.gap_end ∧ doc_full.capacity = 1024 ∧
    (insert_char doc_full 9).capacity = 1536 ∧
    (insert_char doc_full 9).gap_end - (insert_char doc_full 9).gap_start = 511 ∧
    (delete_range (insert_char doc_full 9) 2 2147483647).capacity = 1536 ∧
    (delete_range (insert_char doc_full 9) 2 2147483647).gap_end
      = (delete_range (insert_char doc_full 9) 2 2147483647).gap_start ∧
    (insert_char (delete_range (insert_char doc_full 9) 2 2147483647) 9).capacity = 2048 := by
  rw [doc_full_eq]
  decide

set_option maxRecDepth 100000 in
/-- C15 (range delete offsets), refuted on the code at `y = INT_MAX`: on the
document `"a\nb\n"` the command `:d *2 2147483647` has `x = 2 <= y`, start offset
`find_line_offset(2) = 2` and, `y + 1` wrapping to `INT_MIN`, end offset
`find_line_offset(y + 1) = 0 < 2`; length grows from 4 to 6. On a document of
513 bytes `'a'` the same command leaves `gap_end = 511` below `gap_start = 513`. -/
theorem range_delete_end_before_start :
    WF doc_two_lines ∧
    wrap32 (2147483647 + 1) = -2147483648 ∧
    find_line_offset doc_two_lines 2 = 2 ∧
    find_line_offset doc_two_lines (wrap32 (2147483647 + 1)) = 0 ∧
    doc_two_lines.length = 4 ∧
    (delete_range doc_two_lines 2 2147483647).length = 6 ∧
    WF doc_513 ∧
    (delete_range doc_513 2 2147483647).gap_end
      < (delete_range doc_513 2 2147483647).gap_start := by
  refine ⟨by decide, by decide, by decide, by decide, by decide, by decide, ?_, ?_⟩
  · rw [doc_513_eq]; exact WF_layout _ _ _
  · rw [delete_range_doc_513]
    decide

theorem capacity_move_gap (gb : GapBuffer) (k : Int) :
    (move_gap gb k).capacity = gb.capacity := by
  rw [move_gap_unfold]; split_ifs <;> rfl

theorem length_move_gap (gb : GapBuffer) (k : Int) :
    (move_gap gb k).length = gb.length := by
  rw [move_gap_unfold]; split_ifs <;> rfl

theorem capacity_delete_line_loop (fuel : Nat) :
    ∀ gb : GapBuffer, (delete_line_loop fuel gb).capacity = gb.capacity := by
  induction fuel with
  | zero => intro gb; rfl
  | succ f ih =>
    intro gb
    unfold delete_line_loop
    by_cases hlt : gb.gap_end < gb.capacity
    · rw [if_pos hlt]
      dsimp only
      split_ifs
      · rfl
      · rw [ih]
    · rw [if_neg hlt]

theorem capacity_delete_line (gb : GapBuffer) (n : Int) :
    (delete_line gb n).capacity = gb.capacity := by
  unfold delete_line
  dsimp only
  split_ifs
  · rw [capacity_delete_line_loop, capacity_move_gap]
  · rw [capacity_move_gap]

theorem capacity_delete_range (gb : GapBuffer) (x y : Int) :
    (delete_range gb x y).capacity = gb.capacity := by
  unfold delete_range
  exact capacity_move_gap gb _

theorem capacity_delete_to_end (gb : GapBuffer) (n : Int) :
    (delete_to_end gb n).capacity = gb.capacity := by
  unfold delete_to_end
  exact capacity_move_gap gb _

theorem length_eq_save_file (gb : GapBuffer) (h : WF gb) :
    gb.length = (save_file gb).length := by
  obtain ⟨B, G, A, rfl⟩ := h.exists_layout
  rw [save_file_layout]; simp [layout]

theorem length_delete_line_le (gb : GapBuffer) (n : Int) (h : WF gb) :
    (delete_line gb n).length ≤ gb.length := by
  obtain ⟨B, G, A, rfl⟩ := h.exists_layout
  obtain ⟨G', hG'⟩ := delete_line_layout B G A n
  rw [hG']
  simp only [layout, List.length_take, List.length_drop, List.length_append]
  push_cast; omega

theorem length_delete_to_end_le (gb : GapBuffer) (n : Int) (h : WF gb) :
    (delete_to_end gb n).length ≤ gb.length := by
  obtain ⟨B, G, A, rfl⟩ := h.exists_layout
  obtain ⟨G', hG'⟩ := delete_to_end_layout B G A n
  rw [hG']
  simp only [layout, List.length_take, List.length_nil, List.length_append]
  push_cast; omega

theorem length_delete_range_le (gb : GapBuffer) (x y : Int) (h : WF gb) (hxy : x ≤ y)
    (hx : -2147483648 ≤ x) (hy : y < 2147483647) :
    (delete_range gb x y).length ≤ gb.length := by
  obtain ⟨hsave, -, hmono, hwf⟩ := delete_range_no_overflow gb x y h hxy (by omega) hy
  rw [length_eq_save_file _ hwf, length_eq_save_file _ h, hsave]
  simp only [List.length_append, List.length_take, List.length_drop]
  push_cast; omega

theorem insert_char_no_growth (gb : GapBuffer) (c : Nat) (hgap : gb.gap_start ≠ gb.gap_end) :
    (insert_char gb c).capacity = gb.capacity ∧ (insert_char gb c).length = gb.length + 1 := by
  unfold insert_char
  simp only [if_neg hgap, and_self]

theorem apply_keeps_capacity (gb : GapBuffer) (op : EditOp) (j : Nat) (h : WF gb)
    (hop : op.below_int_max)
    (hj : ((j + (if op.is_insert then 1 else 0) : Nat) : Int) ≤ gb.capacity - gb.length) :
    WF (op.apply gb) ∧ (op.apply gb).capacity = gb.capacity ∧
      (j : Int) ≤ (op.apply gb).capacity - (op.apply gb).length := by
  cases op with
  | insert c =>
    have hgap : gb.gap_start ≠ gb.gap_end := by
      obtain ⟨⟨-, -, -, hlen⟩, -⟩ := h
      simp only [EditOp.is_insert, if_true] at hj
      push_cast at hj
      omega
    obtain ⟨hcap, hlen⟩ := insert_char_no_growth gb c hgap
    refine ⟨WF_insert_char gb c h, hcap, ?_⟩
    simp only [EditOp.apply, EditOp.is_insert, if_true] at hj ⊢
    rw [hcap, hlen]
    push_cast at hj
    omega
  | move k =>
    refine ⟨WF_move_gap gb k h, capacity_move_gap gb k, ?_⟩
    simp only [EditOp.apply, EditOp.is_insert] at hj ⊢
    rw [capacity_move_gap, length_move_gap]
    simpa using hj
  | del_line n =>
    refine ⟨WF_delete_line gb n h, capacity_delete_line gb n, ?_⟩
    have := length_delete_line_le gb n h
    simp only [EditOp.apply, EditOp.is_insert] at hj ⊢
    rw [capacity_delete_line]
    have hj' : (j : Int) ≤ gb.capacity - gb.length := by simpa using hj
    omega
  | del_range x y =>
    obtain ⟨hxy, hx, hy⟩ := hop
    refine ⟨(delete_range_no_overflow gb x y h hxy (by omega) hy).2.2.2,
      capacity_delete_range gb x y, ?_⟩
    have := length_delete_range_le gb x y h hxy hx hy
    simp only [EditOp.apply, EditOp.is_insert] at hj ⊢
    rw [capacity_delete_range]
    have hj' : (j : Int) ≤ gb.capacity - gb.length := by simpa using hj
    omega
  | del_to_end n =>
    refine ⟨WF_delete_to_end gb n h, capacity_delete_to_end gb n, ?_⟩
    have := length_delete_to_end_le gb n h
    simp only [EditOp.apply, EditOp.is_insert] at hj ⊢
    rw [capacity_delete_to_end]
    have hj' : (j : Int) ≤ gb.capacity - gb.length := by simpa using hj
    omega

theorem run_keeps_capacity (ops : List EditOp) :
    ∀ gb : GapBuffer, WF gb → (∀ op ∈ ops, op.below_int_max) →
      ((ops.countP EditOp.is_insert : Nat) : Int) ≤ gb.capacity - gb.length →
      WF (run gb ops) ∧ (run gb ops).capacity = gb.capacity := by
  induction ops with
  | nil => intro gb h _ _; exact ⟨h, rfl⟩
  | cons op ops ih =>
    intro gb h hops hcount
    have hcnt : (op :: ops).countP EditOp.is_insert
        = ops.countP EditOp.is_insert + (if op.is_insert then 1 else 0) := by
      rw [List.countP_cons]
    rw [hcnt] at hcount
    obtain ⟨hwf, hcap, hj⟩ := apply_keeps_capacity gb op (ops.countP EditOp.is_insert) h
      (hops op (List.mem_cons_self _ _)) hcount
    obtain ⟨hwf', hcap'⟩ := ih (op.apply gb) hwf
      (fun o ho => hops o (List.mem_cons_of_mem _ ho)) hj
    exact ⟨hwf', hcap'.trans hcap⟩

/-- The growth bound of C13 when no range delete overflows: from a state
satisfying the invariant whose gap is empty, an insertion grows the region by
512 bytes, and after it no sequence of insertions, move_gap calls, single-line
deletes, deletes to end and range deletes with `x <= y < INT_MAX` that holds at
most 511 insertions changes the capacity again. -/
theorem no_growth_within_511_insertions (gb : GapBuffer) (c : Nat) (ops : List EditOp)
    (h : WF gb) (hempty : gb.gap_start = gb.gap_end)
    (hops : ∀ op ∈ ops, op.below_int_max)
    (hcount : ops.countP EditOp.is_insert ≤ 511) :
    (insert_char gb c).capacity = gb.capacity + 512 ∧
    (run (insert_char gb c) ops).capacity = (insert_char gb c).capacity ∧
    WF (run (insert_char gb c) ops) := by
  obtain ⟨B, G, A, rfl⟩ := h.exists_layout
  have hG : G = [] := by
    simp only [layout] at hempty
    exact List.length_eq_zero.mp (by omega)
  subst hG
  have hins := insert_char_layout_nil B A c
  have hcap : (insert_char (layout B [] A) c).capacity = (layout B [] A).capacity + 512 := by
    rw [hins]; simp only [layout, List.length_append, List.length_replicate,
      List.length_singleton, List.length_nil]
    push_cast; omega
  have hwidth : (511 : Int) ≤ (insert_char (layout B [] A) c).capacity
      - (insert_char (layout B [] A) c).length := by
    rw [hins]; simp only [layout, List.length_append, List.length_replicate,
      List.length_singleton]
    push_cast; omega
  obtain ⟨hwf, hrun⟩ := run_keeps_capacity ops (insert_char (layout B [] A) c)
    (WF_insert_char _ c (WF_layout _ _ _)) hops (by omega)
  exact ⟨hcap, hrun, hwf⟩

/-- Witness of the growth bound without overflow: a full one-byte region, the
growing insertion, then a move, a range delete of lines 1..1 and an insertion. -/
theorem no_growth_within_511_insertions_witness :
    WF (layout [10] [] []) ∧
    (run (insert_char (layout [10] [] []) 97)
      [EditOp.move 0, EditOp.del_range 1 1, EditOp.insert 98]).capacity = 513 :=
  ⟨by decide,
   ((no_growth_within_511_insertions (layout [10] [] []) 97
      [EditOp.move 0, EditOp.del_range 1 1, EditOp.insert 98] (by decide) (by decide)
      (by
        intro op hop
        simp only [List.mem_cons, List.mem_singleton, List.mem_nil_iff, or_false] at hop
        rcases hop with h | h | h <;> subst h
        · trivial
        · exact ⟨by decide, by decide, by decide⟩
        · trivial)
      (by decide)).2.1).trans (by decide)⟩

theorem grow_buffer_int_layout (B G A : List Nat)
    (hcap : B.length + G.length + A.length + 512 ≤ 2147483647) :
    grow_buffer_int (layout B G A) = some (layout B (List.replicate (G.length + 512) 0) A) := by
  rw [← grow_buffer_layout]
  have h1 : wrap32 ((layout B G A).capacity + GAP_SIZE) = (layout B G A).capacity + GAP_SIZE := by
    apply wrap32_of_range <;> simp only [layout, GAP_SIZE] <;> omega
  have h2 : wrap32 ((layout B G A).capacity - (layout B G A).gap_end)
      = (layout B G A).capacity - (layout B G A).gap_end := by
    apply wrap32_of_range <;> simp only [layout] <;> omega
  have h3 : wrap32 ((layout B G A).capacity + GAP_SIZE
      - ((layout B G A).capacity - (layout B G A).gap_end))
      = (layout B G A).capacity + GAP_SIZE
        - ((layout B G A).capacity - (layout B G A).gap_end) := by
    apply wrap32_of_range <;> simp only [layout, GAP_SIZE] <;> omega
  have hneg : ¬ (layout B G A).capacity + GAP_SIZE < 0 := by
    simp only [layout, GAP_SIZE]; omega
  unfold grow_buffer_int grow_buffer
  simp only [h1, h2, h3, if_neg hneg]

theorem grow_buffer_int_overflow (B G A : List Nat)
    (hcap : 2147483647 < B.length + G.length + A.length + 512)
    (hint : B.length + G.length + A.length ≤ 2147483647) :
    grow_buffer_int (layout B G A) = none := by
  have hneg : wrap32 ((layout B G A).capacity + GAP_SIZE) < 0 := by
    simp only [layout, GAP_SIZE, wrap32]; omega
  unfold grow_buffer_int
  simp only [if_pos hneg]

theorem insert_char_int_layout_cons (B G A : List Nat) (g c : Nat)
    (hcap : B.length + (g :: G).length + A.length ≤ 2147483647) :
    insert_char_int (layout B (g :: G) A) c = some (layout (B ++ [c]) G A) := by
  rw [← insert_char_layout_cons B G A g c]
  have hne : (layout B (g :: G) A).gap_start ≠ (layout B (g :: G) A).gap_end := by
    simp only [layout, List.length_cons]; push_cast; omega
  have h1 : wrap32 ((layout B (g :: G) A).gap_start + 1)
      = (layout B (g :: G) A).gap_start + 1 := by
    apply wrap32_of_range <;> simp only [layout, List.length_cons] at hcap ⊢ <;> omega
  have h2 : wrap32 ((layout B (g :: G) A).length + 1) = (layout B (g :: G) A).length + 1 := by
    apply wrap32_of_range <;> simp only [layout, List.length_cons] at hcap ⊢ <;> omega
  unfold insert_char_int insert_char
  simp only [if_neg hne, h1, h2]

theorem insert_char_int_layout_nil (B A : List Nat) (c : Nat)
    (hcap : B.length + A.length + 512 ≤ 2147483647) :
    insert_char_int (layout B [] A) c = some (layout (B ++ [c]) (List.replicate 511 0) A) := by
  have hgrow := grow_buffer_int_layout B [] A (by simpa using hcap)
  have hnext := insert_char_int_layout_cons B (List.replicate 511 0) A 0 c
    (by simp only [List.length_cons, List.length_replicate]; omega)
  have heq : (layout B [] A).gap_start = (layout B [] A).gap_end := by simp [layout]
  have hne : (layout B (0 :: List.replicate 511 0) A).gap_start
      ≠ (layout B (0 :: List.replicate 511 0) A).gap_end := by
    simp only [layout, List.length_cons, List.length_replicate]; push_cast; omega
  unfold insert_char_int at hnext ⊢
  rw [if_pos heq, hgrow]
  rw [if_neg hne] at hnext
  exact hnext

theorem insert_char_int_overflow (B A : List Nat) (c : Nat)
    (hcap : 2147483647 < B.length + A.length + 512)
    (hint : B.length + A.length ≤ 2147483647) :
    insert_char_int (layout B [] A) c = none := by
  have hgrow := grow_buffer_int_overflow B [] A (by simpa using hcap) (by simpa using hint)
  have heq : (layout B [] A).gap_start = (layout B [] A).gap_end := by simp [layout]
  unfold insert_char_int
  rw [if_pos heq, hgrow]

theorem load_int_layout (bs : List Nat) : ∀ B G A : List Nat,
    B.length + G.length + A.length + 512 * growths_needed G.length bs.length ≤ 2147483647 →
    ∃ G', load_int (layout B G A) bs = some (layout (B ++ bs) G' A) ∧
      G'.length + bs.length = G.length + 512 * growths_needed G.length bs.length := by
  induction bs with
  | nil =>
    intro B G A _
    refine ⟨G, by simp [load_int], ?_⟩
    simp only [growths_needed, List.length_nil]; omega
  | cons b bs ih =>
    intro B G A hcap
    cases G with
    | nil =>
      have hg : growths_needed 0 (bs.length + 1) = growths_needed 511 bs.length + 1 := by
        simp only [growths_needed]; omega
      simp only [List.length_nil, List.length_cons, hg] at hcap ⊢
      have hins := insert_char_int_layout_nil B A b (by omega)
      obtain ⟨G', hG', hlen⟩ := ih (B ++ [b]) (List.replicate 511 0) A
        (by simp only [List.length_append, List.length_singleton, List.length_replicate]; omega)
      refine ⟨G', ?_, ?_⟩
      · unfold load_int
        rw [hins]
        simp only
        rw [hG', List.append_assoc, List.singleton_append]
      · simp only [List.length_replicate] at hlen; omega
    | cons g G =>
      have hg : growths_needed (G.length + 1) (bs.length + 1) = growths_needed G.length bs.length := by
        simp only [growths_needed]; omega
      simp only [List.length_cons, hg] at hcap ⊢
      have hins := insert_char_int_layout_cons B G A g b
        (by simp only [List.length_cons]; omega)
      obtain ⟨G', hG', hlen⟩ := ih (B ++ [b]) G A
        (by simp only [List.length_append, List.length_singleton]; omega)
      refine ⟨G', ?_, ?_⟩
      · unfold load_int
        rw [hins]
        simp only
        rw [hG', List.append_assoc, List.singleton_append]
      · omega

theorem load_int_append (bs : List Nat) (x : Nat) :
    ∀ gb : GapBuffer, load_int gb (bs ++ [x]) =
      match load_int gb bs with
      | none => none
      | some gb' => insert_char_int gb' x := by
  induction bs with
  | nil =>
    intro gb
    simp only [List.nil_append, load_int]
    cases insert_char_int gb x <;> rfl
  | cons b bs ih =>
    intro gb
    simp only [List.cons_append, load_int]
    cases insert_char_int gb b with
    | none => rfl
    | some gb' => exact ih gb'

theorem insert_string_loop_int_eq_load (bs : List Nat) (hbs : ∀ b ∈ bs, b ≠ 0) :
    ∀ gb : GapBuffer, insert_string_loop_int gb bs = load_int gb bs := by
  induction bs with
  | nil => intro gb; rfl
  | cons b bs ih =>
    intro gb
    have hb : b ≠ 0 := hbs b (List.mem_cons_self _ _)
    unfold insert_string_loop_int load_int
    rw [if_neg hb]
    cases insert_char_int gb b with
    | none => rfl
    | some gb' => exact ih (fun x hx => hbs x (List.mem_cons_of_mem _ hx)) gb'

/-- Below the overflow the two embeddings of grow_buffer agree: on a state
satisfying the invariant with `capacity + 512 <= INT_MAX`, the 32-bit version
returns the state computed with exact arithmetic. -/
theorem grow_buffer_int_eq (gb : GapBuffer) (h : WF gb)
    (hcap : gb.capacity + 512 ≤ 2147483647) :
    grow_buffer_int gb = some (grow_buffer gb) := by
  obtain ⟨B, G, A, rfl⟩ := h.exists_layout
  rw [grow_buffer_layout]
  exact grow_buffer_int_layout B G A (by simp only [layout] at hcap; omega)

/-- Below the overflow the two embeddings of insert_char agree. -/
theorem insert_char_int_eq (gb : GapBuffer) (c : Nat) (h : WF gb)
    (hcap : gb.capacity + 512 ≤ 2147483647) :
    insert_char_int gb c = some (insert_char gb c) := by
  obtain ⟨B, G, A, rfl⟩ := h.exists_layout
  have hcap' : B.length + G.length + A.length + 512 ≤ 2147483647 := by
    simp only [layout] at hcap; omega
  cases G with
  | nil =>
    rw [insert_char_layout_nil]
    exact insert_char_int_layout_nil B A c (by simpa using hcap')
  | cons g G =>
    rw [insert_char_layout_cons]
    exact insert_char_int_layout_cons B G A g c (by omega)

theorem create_buffer_1024 :
    create_buffer 1024 = layout [] (List.replicate 1024 0) [] := by
  rw [create_buffer_layout]; rfl

theorem file_max_length : file_max.length = 2147483136 := by
  unfold file_max; rw [List.length_replicate]

theorem load_int_fills_max (f : List Nat) (hf : f.length = 2147483136) :
    load_int (create_buffer 1024) f = some (layout f [] []) := by
  obtain ⟨G', hG', hlen⟩ := load_int_layout f [] (List.replicate 1024 0) []
    (by
      simp only [List.length_nil, List.length_replicate, hf, growths_needed]
      omega)
  have hG0 : G' = [] := by
    simp only [List.length_replicate, hf, growths_needed] at hlen
    exact List.length_eq_zero.mp (by omega)
  subst hG0
  rw [create_buffer_1024, hG', List.nil_append]

theorem insert_char_int_full_max (f : List Nat) (hf : f.length = 2147483136) (c : Nat) :
    insert_char_int (layout f [] []) c = none :=
  insert_char_int_overflow f [] c
    (by simp only [hf, List.length_nil]; omega)
    (by simp only [hf, List.length_nil]; omega)

theorem load_int_beyond_max (f : List Nat) (hf : f.length = 2147483136) (c : Nat) :
    (f ++ [c]).length = 2147483137 ∧
    load_int (create_buffer 1024) (f ++ [c]) = none := by
  refine ⟨by rw [List.length_append, hf]; rfl, ?_⟩
  rw [load_int_append, load_int_fills_max f hf]
  exact insert_char_int_full_max f hf c

theorem full_max_fields (f : List Nat) (hf : f.length = 2147483136) :
    (layout f [] []).capacity = 2147483136 ∧
    (layout f [] []).gap_start = (layout f [] []).gap_end ∧
    wrap32 ((layout f [] []).capacity + GAP_SIZE) = -2147483648 := by
  simp only [layout, hf, List.length_nil, GAP_SIZE, wrap32]
  refine ⟨by omega, by omega, by omega⟩

/-- C2 as stated is refuted: a byte sequence of 2147483137 bytes `'a'` cannot be
loaded. After the first 2147483136 bytes the region is full with capacity
2147483136, and the growth the next byte needs computes
`new_cap = 2147483136 + 512` beyond `INT_MAX`: the load has no result. -/
theorem load_int_fails_beyond_max :
    (file_max ++ [97]).length = 2147483137 ∧
    load_int (create_buffer 1024) file_max = some doc_max ∧
    WF doc_max ∧
    load_int (create_buffer 1024) (file_max ++ [97]) = none :=
  ⟨(load_int_beyond_max file_max file_max_length 97).1,
   load_int_fills_max file_max file_max_length,
   WF_layout _ _ _,
   (load_int_beyond_max file_max file_max_length 97).2⟩

/-- C2 (round trip, amended): for every byte sequence `bs` of at most 2147483136
bytes (any bytes, `'\n'`, tabs and zero bytes included, and any length up to that
bound, beyond the initial capacity 1024 too), loading `bs` into a fresh
`create_buffer(1024)` with one insert_char per byte, in 32-bit arithmetic,
returns a document, and saving it (before-gap bytes followed by after-gap
bytes) produces exactly `bs`. -/
theorem load_int_roundtrip (bs : List Nat) (hlen : bs.length ≤ 2147483136) :
    ∃ gb, load_int (create_buffer 1024) bs = some gb ∧ save_file gb = bs ∧ WF gb := by
  obtain ⟨G', hG', -⟩ := load_int_layout bs [] (List.replicate 1024 0) []
    (by
      simp only [List.length_nil, List.length_replicate, growths_needed]
      omega)
  rw [create_buffer_1024]
  exact ⟨_, hG', by rw [save_file_layout]; simp, WF_layout _ _ _⟩

/-- Witness of C2: a five-byte sequence holding a newline, a tab and a zero byte. -/
theorem load_int_roundtrip_witness :
    [97, 10, 9, 0, 98].length ≤ 2147483136 ∧
    ∃ gb, load_int (create_buffer 1024) [97, 10, 9, 0, 98] = some gb ∧
      save_file gb = [97, 10, 9, 0, 98] ∧ WF gb :=
  ⟨by decide, load_int_roundtrip [97, 10, 9, 0, 98] (by decide)⟩

theorem doc_max_eq : doc_max = layout file_max [] [] := rfl

theorem grow_buffer_int_full_max (f : List Nat) (hf : f.length = 2147483136) :
    grow_buffer_int (layout f [] []) = none :=
  grow_buffer_int_overflow f [] []
    (by simp only [hf, List.length_nil]; omega)
    (by simp only [hf, List.length_nil]; omega)

/-- C5 as stated is refuted: on the full document of 2147483136 bytes, which
satisfies the invariant, grow_buffer computes `new_cap = 2147483136 + 512` in an
`int`; the sum wraps to `-2147483648` and the function has no result, so the
capacity is not set to `capacity + 512`. -/
theorem grow_buffer_int_fails_at_max :
    WF doc_max ∧
    doc_max.capacity = 2147483136 ∧
    wrap32 (doc_max.capacity + GAP_SIZE) = -2147483648 ∧
    grow_buffer_int doc_max = none := by
  rw [doc_max_eq]
  exact ⟨WF_layout _ _ _,
    (full_max_fields file_max file_max_length).1,
    (full_max_fields file_max file_max_length).2.2,
    grow_buffer_int_full_max file_max file_max_length⟩

/-- C5 (grow_buffer, amended): on a state satisfying the invariant whose capacity
is at most `INT_MAX - 512` (so that `capacity + 512` fits in an `int`),
grow_buffer returns a state that keeps the before-gap content, the after-gap
content, the saved content, gap_start and length, has capacity
`capacity + 512`, and has gap_end at the new capacity minus the old after-gap
size `capacity - gap_end`; the invariant is kept. -/
theorem grow_buffer_int_spec (gb : GapBuffer) (h : WF gb)
    (hcap : gb.capacity + 512 ≤ 2147483647) :
    ∃ gb', grow_buffer_int gb = some gb' ∧
      before_gap gb' = before_gap gb ∧
      after_gap gb' = after_gap gb ∧
      save_file gb' = save_file gb ∧
      gb'.gap_start = gb.gap_start ∧
      gb'.length = gb.length ∧
      gb'.capacity = gb.capacity + 512 ∧
      gb'.gap_end = (gb.capacity + 512) - (gb.capacity - gb.gap_end) ∧
      WF gb' := by
  obtain ⟨B, G, A, rfl⟩ := h.exists_layout
  have hcap' : B.length + G.length + A.length + 512 ≤ 2147483647 := by
    simp only [layout] at hcap; omega
  refine ⟨_, grow_buffer_int_layout B G A hcap', ?_, ?_, ?_, rfl, rfl, ?_, ?_, WF_layout _ _ _⟩
  · rw [before_gap_layout, before_gap_layout]
  · rw [after_gap_layout, after_gap_layout]
  · rw [save_file_layout, save_file_layout]
  · simp only [layout, List.length_replicate]; push_cast; omega
  · simp only [layout, List.length_replicate]; push_cast; omega

/-- Witness of C5: a full four-byte region with the (empty) gap in the middle. -/
theorem grow_buffer_int_spec_witness :
    WF (layout [97, 98] [] [99, 100]) ∧
    (layout [97, 98] [] [99, 100]).capacity + 512 ≤ 2147483647 ∧
    ∃ gb', grow_buffer_int (layout [97, 98] [] [99, 100]) = some gb' ∧
      save_file gb' = [97, 98, 99, 100] ∧ gb'.capacity = 516 ∧ gb'.gap_end = 514 := by
  obtain ⟨gb', h1, _, _, h4, _, _, h7, h8, _⟩ :=
    grow_buffer_int_spec (layout [97, 98] [] [99, 100]) (by decide) (by decide)
  exact ⟨by decide, by decide, gb', h1, h4.trans (by decide), h7.trans (by decide),
    h8.trans (by decide)⟩

theorem insert_string_int_full_max (f : List Nat) (hf : f.length = 2147483136) :
    insert_string_int (layout f [] []) (some [98]) = none := by
  have h := insert_char_int_full_max f hf 98
  have e : insert_string_int (layout f [] []) (some [98])
      = match insert_char_int (layout f [] []) 98 with
        | none => none
        | some gb => insert_string_loop_int gb [] := by
    simp only [insert_string_int, insert_string_loop_int]
    rfl
  rw [e, h]

/-- C4 as stated is refuted: on the full document of 2147483136 bytes, which
satisfies the invariant, insert_string of the single non-zero byte `'b'` has no
result: the gap is empty and the growth it needs computes `new_cap` beyond
`INT_MAX`. -/
theorem insert_string_int_fails_at_max :
    WF doc_max ∧ (∀ b ∈ [98], b ≠ 0) ∧
    doc_max.gap_start = doc_max.gap_end ∧
    insert_string_int doc_max (some [98]) = none := by
  rw [doc_max_eq]
  exact ⟨WF_layout _ _ _, by decide, (full_max_fields file_max file_max_length).2.1,
    insert_string_int_full_max file_max file_max_length⟩

/-- C4 (insert_string, amended): on a state satisfying the invariant with
before-gap content `B` and after-gap content `A`, for every sequence `bs` of
non-zero bytes such that the capacity after the growths the sequence needs,
`capacity + 512 * growths_needed gap |bs|`, is at most `INT_MAX`, insert_string
returns a state with before-gap content `B ++ bs` and after-gap content `A`,
gap_start and length each increased by the length of `bs`, that capacity, and
the invariant kept; any number of growths may happen on the way. -/
theorem insert_string_int_spec (gb : GapBuffer) (bs : List Nat) (h : WF gb)
    (hbs : ∀ b ∈ bs, b ≠ 0)
    (hcap : gb.capacity
      + 512 * (growths_needed (gb.gap_end - gb.gap_start).toNat bs.length : Int)
      ≤ 2147483647) :
    ∃ gb', insert_string_int gb (some bs) = some gb' ∧
      before_gap gb' = before_gap gb ++ bs ∧
      after_gap gb' = after_gap gb ∧
      gb'.gap_start = gb.gap_start + bs.length ∧
      gb'.length = gb.length + bs.length ∧
      gb'.capacity = gb.capacity
        + 512 * (growths_needed (gb.gap_end - gb.gap_start).toNat bs.length : Int) ∧
      WF gb' := by
  obtain ⟨B, G, A, rfl⟩ := h.exists_layout
  have hw : ((layout B G A).gap_end - (layout B G A).gap_start).toNat = G.length := by
    simp only [layout]; omega
  rw [hw] at hcap ⊢
  obtain ⟨G', hG', hlen⟩ := load_int_layout bs B G A (by
    simp only [layout] at hcap
    have := hcap
    push_cast at this
    omega)
  have e : insert_string_int (layout B G A) (some bs) = load_int (layout B G A) bs :=
    insert_string_loop_int_eq_load bs hbs _
  refine ⟨_, e.trans hG', ?_, ?_, ?_, ?_, ?_, WF_layout _ _ _⟩
  · rw [before_gap_layout, before_gap_layout]
  · rw [after_gap_layout, after_gap_layout]
  · simp only [layout, List.length_append]; push_cast; omega
  · simp only [layout, List.length_append]; push_cast; omega
  · simp only [layout, List.length_append]; push_cast; omega

/-- Witness of C4: three bytes inserted into a two-byte region with a one-byte gap
before the byte `z`: the first byte fills the gap and the second insertion has
to grow the region in the middle of the sequence. -/
theorem insert_string_int_spec_witness :
    WF (layout [] [0] [122]) ∧ (∀ b ∈ [97, 98, 99], b ≠ 0) ∧
    growths_needed 1 3 = 1 ∧
    ∃ gb', insert_string_int (layout [] [0] [122]) (some [97, 98, 99]) = some gb' ∧
      before_gap gb' = [97, 98, 99] ∧ after_gap gb' = [122] ∧ gb'.capacity = 514 := by
  obtain ⟨gb', h1, h2, h3, _, _, h6, _⟩ :=
    insert_string_int_spec (layout [] [0] [122]) [97, 98, 99] (by decide) (by decide)
      (by decide)
  exact ⟨by decide, by decide, by decide, gb', h1, h2.trans (by decide), h3.trans (by decide),
    h6.trans (by decide)⟩

end Neotex
